import Mathlib

/-!
Shallow embedding of `thinkbayes.py` (Think Bayes discrete-distribution
toolkit): dictionary-backed weighted maps (Hist/Pmf), Cdf construction and
lookup, and the Suite Bayesian-update protocol.  Python floats are embedded
as exact rationals (ℚ); Python dicts as association lists in insertion
order with unique keys; raising an exception is `Except.error`.
-/

namespace ThinkBayes

/-- The exceptions this code can raise: `ValueError('total probability is
zero.')`, `ValueError('Probability p must be in range [0, 1]')`,
`IndexError` from list indexing, and `AttributeError` from a failed
attribute lookup. -/
inductive Err where
  | zeroTotal
  | outOfRange
  | indexError
  | attributeError
deriving DecidableEq, Repr

instance {ε σ : Type} [DecidableEq ε] [DecidableEq σ] : DecidableEq (Except ε σ) := fun a b =>
  match a, b with
  | Except.error e, Except.error f =>
    if h : e = f then Decidable.isTrue (by rw [h])
    else Decidable.isFalse (fun hc => h (by injection hc))
  | Except.ok v, Except.ok w =>
    if h : v = w then Decidable.isTrue (by rw [h])
    else Decidable.isFalse (fun hc => h (by injection hc))
  | Except.error _, Except.ok _ => Decidable.isFalse (fun hc => by injection hc)
  | Except.ok _, Except.error _ => Decidable.isFalse (fun hc => by injection hc)

variable {α : Type} [DecidableEq α]

/-- The keys of the backing dict, in insertion order (the Hist/Pmf "values"). -/
def dictKeys (s : List (α × ℚ)) : List α := s.map Prod.fst

/-- `d.get(x, default)`. -/
def dictGet (x : α) (default : ℚ) : List (α × ℚ) → ℚ
  | [] => default
  | p :: rest => if p.1 = x then p.2 else dictGet x default rest

/-- `d[x] = y`: overwrite if the key is present, else insert at the end
(insertion order). -/
def dictSet (x : α) (y : ℚ) (s : List (α × ℚ)) : List (α × ℚ) :=
  if x ∈ dictKeys s then s.map (fun p => if p.1 = x then (x, y) else p)
  else s ++ [(x, y)]

/-- `_DictWrapper.Incr`: `self.d[x] = self.d.get(x, 0) + term`. -/
def dictIncr (x : α) (term : ℚ) (s : List (α × ℚ)) : List (α × ℚ) :=
  dictSet x (dictGet x 0 s + term) s

/-- `_DictWrapper.Mult`: `self.d[x] = self.d.get(x, 0) * factor`. -/
def dictMult (x : α) (factor : ℚ) (s : List (α × ℚ)) : List (α × ℚ) :=
  dictSet x (dictGet x 0 s * factor) s

/-- `_DictWrapper.Total`: `sum(self.d.itervalues())`. -/
def dictTotal (s : List (α × ℚ)) : ℚ := (s.map Prod.snd).sum

/-- The dict invariant: keys are unique. -/
def keysNodup (s : List (α × ℚ)) : Prop := (dictKeys s).Nodup

/-- `Pmf.Normalize(fraction)`: computes `total`; raises ZeroTotal before
touching any weight when `total == 0`; otherwise multiplies every stored
weight by `factor = fraction / total` and returns the pre-normalization
total.  The first component is the state of the dict afterwards. -/
def pmfNormalize (fraction : ℚ) (s : List (α × ℚ)) : List (α × ℚ) × Except Err ℚ :=
  let total := dictTotal s
  if total = 0 then (s, Except.error Err.zeroTotal)
  else (s.map (fun p => (p.1, p.2 * (fraction / total))), Except.ok total)

/-- `Suite.Likelihood` (the built-in Monty Hall model): 0 if `hypo == data`,
0.5 if `hypo == 'A'`, else 1. -/
def Likelihood (hypo data : String) : ℚ :=
  if hypo = data then 0 else if hypo = "A" then 1 / 2 else 1

/-- `Suite.__init__`: `Set(hypo, 1)` for each hypothesis, then `Normalize()`
(whose ZeroTotal exception propagates out of the constructor). -/
def suiteInit (hypos : List String) : Except Err (List (String × ℚ)) :=
  let s := hypos.foldl (fun t h => dictSet h 1 t) []
  match pmfNormalize 1 s with
  | (t, Except.ok _) => Except.ok t
  | (_, Except.error e) => Except.error e

/-- The loop body shared by `Update` and `UpdateSet`:
`for hypo in self.Values(): self.Mult(hypo, self.Likelihood(hypo, data))`.
`Values()` is a snapshot of the keys taken before the mutation starts. -/
def suiteUpdateLoop (data : String) (s : List (String × ℚ)) : List (String × ℚ) :=
  (dictKeys s).foldl (fun t h => dictMult h (Likelihood h data) t) s

/-- `Suite.Update(data)`: multiply every hypothesis weight by its likelihood,
then `Normalize()`; returns the mutated state and the normalizing constant. -/
def suiteUpdate (data : String) (s : List (String × ℚ)) :
    Except Err (List (String × ℚ) × ℚ) :=
  match pmfNormalize 1 (suiteUpdateLoop data s) with
  | (t, Except.ok c) => Except.ok (t, c)
  | (_, Except.error e) => Except.error e

/-- Calling `Update` once per datum in sequence (the claimed reference
behaviour for `UpdateSet`); the per-step constants are discarded. -/
def suiteUpdateSeq : List String → List (String × ℚ) → Except Err (List (String × ℚ))
  | [], s => Except.ok s
  | d :: ds, s =>
    match suiteUpdate d s with
    | Except.ok (t, _) => suiteUpdateSeq ds t
    | Except.error e => Except.error e

/-- `Suite.UpdateSet(dataset)`: the multiplicative step for every
(datum, hypothesis) pair with no intermediate normalization, then one final
`Normalize()`; returns the final state and normalizing constant. -/
def suiteUpdateSet (dataset : List String) (s : List (String × ℚ)) :
    Except Err (List (String × ℚ) × ℚ) :=
  match pmfNormalize 1 (dataset.foldl (fun t d => suiteUpdateLoop d t) s) with
  | (t, Except.ok c) => Except.ok (t, c)
  | (_, Except.error e) => Except.error e

/-- `Cdf`: parallel lists of values and cumulative probabilities. -/
structure Cdf where
  xs : List ℚ
  ps : List ℚ
deriving DecidableEq, Repr

/-- Python list indexing `l[i]`: negative indices count from the end;
out-of-bounds gives `none` (IndexError). -/
def pyGet (l : List ℚ) (i : ℤ) : Option ℚ :=
  if 0 ≤ i then l[i.toNat]?
  else if -i ≤ (l.length : ℤ) then l[l.length - (-i).toNat]? else none

/-- The binary-search loop of `bisect.bisect` / `bisect_right`:
`while lo < hi: mid = (lo+hi)//2; if x < a[mid]: hi = mid else: lo = mid+1`,
returning `lo`.  Each iteration shrinks `hi - lo`, so the loop runs at most
`hi - lo` times; `fuel` bounds the number of iterations and is never
exhausted at the call site below (`bisectGo_spec` holds for every
sufficient fuel).  `getD mid 0` is only reached with `mid < a.length`
whenever `hi ≤ a.length`. -/
def bisectGo (l : List ℚ) (x : ℚ) : Nat → Nat → Nat → Nat
  | 0, lo, _ => lo
  | fuel + 1, lo, hi =>
    if lo < hi then
      let mid := (lo + hi) / 2
      if x < l.getD mid 0 then bisectGo l x fuel lo mid
      else bisectGo l x fuel (mid + 1) hi
    else lo

/-- `bisect.bisect(l, x)` (right bisection over the whole list). -/
def bisect (l : List ℚ) (x : ℚ) : Nat := bisectGo l x (l.length + 1) 0 l.length

/-- `Cdf.Prob(x)`: `if x < self.xs[0]: return 0.0`; otherwise
`self.ps[bisect.bisect(self.xs, x) - 1]`. -/
def Cdf.Prob (c : Cdf) (x : ℚ) : Except Err ℚ :=
  match c.xs[0]? with
  | none => Except.error Err.indexError
  | some x0 =>
    if x < x0 then Except.ok 0
    else
      match pyGet c.ps ((bisect c.xs x : ℤ) - 1) with
      | some p => Except.ok p
      | none => Except.error Err.indexError

/-- `Cdf.Value(p)`: OutOfRange unless `0 ≤ p ≤ 1`; `p == 0` gives `xs[0]`,
`p == 1` gives `xs[-1]`; otherwise `index = bisect.bisect(self.ps, p)` and
the result is `xs[index-1]` when `p == ps[index-1]`, else `xs[index]`. -/
def Cdf.Value (c : Cdf) (p : ℚ) : Except Err ℚ :=
  if p < 0 ∨ 1 < p then Except.error Err.outOfRange
  else if p = 0 then
    match c.xs[0]? with
    | some v => Except.ok v
    | none => Except.error Err.indexError
  else if p = 1 then
    match pyGet c.xs (-1) with
    | some v => Except.ok v
    | none => Except.error Err.indexError
  else
    let index := bisect c.ps p
    match pyGet c.ps ((index : ℤ) - 1) with
    | none => Except.error Err.indexError
    | some q =>
      if p = q then
        match pyGet c.xs ((index : ℤ) - 1) with
        | some v => Except.ok v
        | none => Except.error Err.indexError
      else
        match c.xs[index]? with
        | some v => Except.ok v
        | none => Except.error Err.indexError

/-- The ordering Python's `sorted` uses on `(value, weight)` pairs:
lexicographic tuple comparison. -/
def pairLe (a b : ℚ × ℚ) : Prop :=
  a.1 < b.1 ∨ (a.1 = b.1 ∧ a.2 ≤ b.2)

instance : DecidableRel pairLe := by
  intro a b
  unfold pairLe
  infer_instance

instance : IsTotal (ℚ × ℚ) pairLe := by
  constructor
  intro a b
  unfold pairLe
  rcases lt_trichotomy a.1 b.1 with h | h | h
  · exact Or.inl (Or.inl h)
  · rcases le_total a.2 b.2 with h2 | h2
    · exact Or.inl (Or.inr ⟨h, h2⟩)
    · exact Or.inr (Or.inr ⟨h.symm, h2⟩)
  · exact Or.inr (Or.inl h)

instance : IsTrans (ℚ × ℚ) pairLe := by
  constructor
  intro a b c hab hbc
  unfold pairLe at hab hbc ⊢
  rcases hab with h1 | ⟨h1, h1w⟩
  · rcases hbc with h2 | ⟨h2, _⟩
    · exact Or.inl (h1.trans h2)
    · exact Or.inl (h2 ▸ h1)
  · rcases hbc with h2 | ⟨h2, h2w⟩
    · exact Or.inl (h1 ▸ h2)
    · exact Or.inr ⟨h1.trans h2, h1w.trans h2w⟩

/-- `sorted(items)` for a list of `(value, weight)` pairs: Python's sort is
a stable sort under the tuple order, modelled by stable insertion sort
(any two stable sorts with the same total preorder agree). -/
def sortItems (items : List (ℚ × ℚ)) : List (ℚ × ℚ) := items.insertionSort pairLe

/-- The `runsum` loop of `MakeCdfFromItems`: the list of running partial
sums of `cs`, starting from `acc`. -/
def runningSums : List ℚ → ℚ → List ℚ
  | [], _ => []
  | c :: rest, acc => (acc + c) :: runningSums rest (acc + c)

/-- `MakeCdfFromItems(items)`: sort the pairs, accumulate counts, and divide
by the final running sum (`total = float(runsum)`).  For empty input no
division is performed and the Cdf is empty. -/
def MakeCdfFromItems (items : List (ℚ × ℚ)) : Cdf :=
  let s := sortItems items
  let cs := runningSums (s.map Prod.snd) 0
  let total := cs.getLastD 0
  Cdf.mk (s.map Prod.fst) (cs.map (fun c => c / total))

/-- `MakeHistFromList(t)`: `hist.Incr(x)` for every element. -/
def MakeHistFromList (t : List ℚ) : List (ℚ × ℚ) :=
  t.foldl (fun h x => dictIncr x 1 h) []

/-- `MakeCdfFromHist(hist)` = `MakeCdfFromItems(hist.Items())`. -/
def MakeCdfFromHist (h : List (ℚ × ℚ)) : Cdf := MakeCdfFromItems h

/-- `MakeCdfFromPmf(pmf)` = `MakeCdfFromItems(pmf.Items())`. -/
def MakeCdfFromPmf (pmf : List (ℚ × ℚ)) : Cdf := MakeCdfFromItems pmf

/-- `MakePmfFromHist(hist)`: copy the dict and `Normalize()` (the ZeroTotal
exception propagates). -/
def MakePmfFromHist (h : List (ℚ × ℚ)) : Except Err (List (ℚ × ℚ)) :=
  match pmfNormalize 1 h with
  | (t, Except.ok _) => Except.ok t
  | (_, Except.error e) => Except.error e

/-- The loop of `MakePmfFromCdf`: `pmf.Incr(val, prob - prev); prev = prob`
over the Cdf items. -/
def makePmfFromCdfLoop : List (ℚ × ℚ) → ℚ → List (ℚ × ℚ) → List (ℚ × ℚ)
  | [], _, pmf => pmf
  | vp :: rest, prev, pmf => makePmfFromCdfLoop rest vp.2 (dictIncr vp.1 (vp.2 - prev) pmf)

/-- `MakePmfFromCdf(cdf)`: recover point masses by consecutive differencing
of the cumulative probabilities, starting from `prev = 0.0`. -/
def MakePmfFromCdf (c : Cdf) : List (ℚ × ℚ) :=
  makePmfFromCdfLoop (c.xs.zip c.ps) 0 []

/-- `MakeCdfFromList(seq)` evaluates `Pmf.MakeHistFromList(seq)`.  `Pmf` is
the class defined in this module, and neither it nor its bases define an
attribute `MakeHistFromList` (that name is a module-level function), so the
attribute lookup raises AttributeError before anything else runs, for every
input. -/
def MakeCdfFromList (seq : List ℚ) : Except Err Cdf :=
  Except.error Err.attributeError

/-- The scan loop of the free function `Percentile(pmf, percentage)`:
`total += prob; if total >= p: return val`, over the items in stored
(dict-iteration) order; falls off the end (returns `None`) when the
accumulated total never reaches `p`. -/
def percentileLoop (p : ℚ) : List (ℚ × ℚ) → ℚ → Option ℚ
  | [], _ => none
  | vp :: rest, total =>
    if p ≤ total + vp.2 then some vp.1 else percentileLoop p rest (total + vp.2)

/-- `Percentile(pmf, percentage)`: walk `pmf.Items()` in stored order
accumulating probability until it reaches `percentage / 100`. -/
def Percentile (pmf : List (ℚ × ℚ)) (percentage : ℚ) : Option ℚ :=
  percentileLoop (percentage / 100) pmf 0

/-- Modelled from the spec claim for C8, for comparison with `Percentile`:
"walk values in ascending order accumulating probability until ≥ pct/100,
return that value". -/
def PercentileAscendingClaim (pmf : List (ℚ × ℚ)) (percentage : ℚ) : Option ℚ :=
  percentileLoop (percentage / 100) (sortItems pmf) 0

/-- The total weight of the first `k` stored items (running prefix sum of
the walk order used by `Percentile`). -/
def takeTotal (s : List (α × ℚ)) (k : Nat) : ℚ := dictTotal (s.take k)

/-- The "properly constructed CDF" invariant stated in the spec data model:
non-empty parallel lists of equal length, values sorted ascending,
cumulative probabilities non-decreasing within [0, 1] and ending at 1. -/
def ProperCdf (c : Cdf) : Prop :=
  c.xs ≠ [] ∧ c.xs.length = c.ps.length ∧ c.xs.Pairwise (· ≤ ·) ∧
  c.ps.Pairwise (· ≤ ·) ∧ (∀ q ∈ c.ps, 0 ≤ q ∧ q ≤ 1) ∧
  c.ps.getD (c.ps.length - 1) 0 = 1

instance (c : Cdf) : Decidable (ProperCdf c) := by
  unfold ProperCdf
  infer_instance

end ThinkBayes

namespace ThinkBayes

variable {α : Type} [DecidableEq α]

theorem dictTotal_map_mul (s : List (α × ℚ)) (c : ℚ) :
    dictTotal (s.map (fun p => (p.1, p.2 * c))) = dictTotal s * c := by
  unfold dictTotal
  rw [List.map_map]
  have h : (Prod.snd ∘ fun p : α × ℚ => (p.1, p.2 * c)) = fun p : α × ℚ => p.2 * c := rfl
  rw [h, ← List.sum_map_mul_right]

theorem dictTotal_append (s t : List (α × ℚ)) :
    dictTotal (s ++ t) = dictTotal s + dictTotal t := by
  unfold dictTotal
  rw [List.map_append, List.sum_append]

theorem dictKeys_dictSet_of_mem {x : α} (y : ℚ) {s : List (α × ℚ)}
    (h : x ∈ dictKeys s) : dictKeys (dictSet x y s) = dictKeys s := by
  unfold dictSet
  rw [if_pos h]
  unfold dictKeys
  rw [List.map_map]
  apply List.map_congr_left
  intro p _
  by_cases hp : p.1 = x
  · simp [hp]
  · simp [hp]

theorem dictKeys_dictSet_of_not_mem {x : α} (y : ℚ) {s : List (α × ℚ)}
    (h : x ∉ dictKeys s) : dictKeys (dictSet x y s) = dictKeys s ++ [x] := by
  unfold dictSet
  rw [if_neg h]
  unfold dictKeys
  rw [List.map_append]
  rfl

theorem dictGet_of_not_mem {x : α} (d : ℚ) {s : List (α × ℚ)}
    (h : x ∉ dictKeys s) : dictGet x d s = d := by
  induction s with
  | nil => rfl
  | cons p rest ih =>
    unfold dictGet
    have hne : ¬ p.1 = x := by
      intro he
      exact h (by rw [← he]; exact List.mem_cons_self _ _)
    rw [if_neg hne]
    exact ih (fun hm => h (List.mem_cons_of_mem _ hm))

theorem dictGet_of_mem_nodup {x : α} {w d : ℚ} {s : List (α × ℚ)}
    (hnd : keysNodup s) (hm : (x, w) ∈ s) : dictGet x d s = w := by
  induction s with
  | nil => cases hm
  | cons p rest ih =>
    unfold keysNodup dictKeys at hnd
    rw [List.map_cons, List.nodup_cons] at hnd
    rcases List.mem_cons.mp hm with he | ht
    · rw [← he]
      unfold dictGet
      rw [if_pos rfl]
    · unfold dictGet
      have hne : ¬ p.1 = x := by
        intro he
        apply hnd.1
        rw [he]
        exact List.mem_map.mpr ⟨(x, w), ht, rfl⟩
      rw [if_neg hne]
      exact ih hnd.2 ht

theorem dictGet_append_of_not_mem {x : α} (d : ℚ) {s : List (α × ℚ)} (t : List (α × ℚ))
    (h : x ∉ dictKeys s) : dictGet x d (s ++ t) = dictGet x d t := by
  induction s with
  | nil => rfl
  | cons p rest ih =>
    rw [List.cons_append]
    simp only [dictGet]
    have hne : ¬ p.1 = x := by
      intro he
      exact h (by rw [← he]; exact List.mem_cons_self _ _)
    rw [if_neg hne]
    exact ih (fun hm => h (List.mem_cons_of_mem _ hm))

/-- C10 helper: `Mult` on an absent key appends `(x, 0 * factor)`. -/
theorem dictMult_of_not_mem {x : α} (factor : ℚ) {s : List (α × ℚ)}
    (h : x ∉ dictKeys s) : dictMult x factor s = s ++ [(x, 0 * factor)] := by
  unfold dictMult
  rw [dictGet_of_not_mem 0 h]
  unfold dictSet
  rw [if_neg h]

/-- C2: `Normalize` rescales every stored weight by `fraction / total`, after
which the total is exactly the target and the pre-normalization total is
returned; when the total is exactly 0 it raises ZeroTotal with the dict
untouched. -/
theorem normalize_spec (s : List (α × ℚ)) (fraction : ℚ) :
    (dictTotal s ≠ 0 →
      pmfNormalize fraction s =
        (s.map (fun p => (p.1, p.2 * (fraction / dictTotal s))), Except.ok (dictTotal s)) ∧
      dictTotal (pmfNormalize fraction s).1 = fraction) ∧
    (dictTotal s = 0 → pmfNormalize fraction s = (s, Except.error Err.zeroTotal)) := by
  constructor
  · intro h
    constructor
    · unfold pmfNormalize
      rw [if_neg h]
    · unfold pmfNormalize
      rw [if_neg h]
      simp only
      rw [dictTotal_map_mul]
      field_simp
  · intro h
    unfold pmfNormalize
    rw [if_pos h]

/-- C2 witness: a concrete normalization and a concrete zero-total failure. -/
theorem normalize_spec_witness :
    (dictTotal [((3 : ℚ), (1 : ℚ)), (5, 3)] ≠ 0 →
      pmfNormalize 1 [((3 : ℚ), (1 : ℚ)), (5, 3)] =
        ([((3 : ℚ), (1 : ℚ)), (5, 3)].map
          (fun p => (p.1, p.2 * (1 / dictTotal [((3 : ℚ), (1 : ℚ)), (5, 3)]))),
         Except.ok (dictTotal [((3 : ℚ), (1 : ℚ)), (5, 3)])) ∧
      dictTotal (pmfNormalize 1 [((3 : ℚ), (1 : ℚ)), (5, 3)]).1 = 1) ∧
    (dictTotal [((3 : ℚ), (1 : ℚ)), (5, 3)] = 0 →
      pmfNormalize 1 [((3 : ℚ), (1 : ℚ)), (5, 3)] =
        ([((3 : ℚ), (1 : ℚ)), (5, 3)], Except.error Err.zeroTotal)) :=
  normalize_spec [((3 : ℚ), (1 : ℚ)), (5, 3)] 1

/-- C10: `Mult` on an absent key inserts the key with weight `0 * factor = 0`,
so the key set grows while the total is unchanged. -/
theorem mult_absent_key (s : List (α × ℚ)) (x : α) (factor : ℚ)
    (h : x ∉ dictKeys s) :
    x ∈ dictKeys (dictMult x factor s) ∧
    dictTotal (dictMult x factor s) = dictTotal s ∧
    dictGet x 0 (dictMult x factor s) = 0 := by
  rw [dictMult_of_not_mem factor h]
  refine ⟨?_, ?_, ?_⟩
  · unfold dictKeys
    rw [List.map_append]
    exact List.mem_append_right _ (List.mem_singleton.mpr rfl)
  · rw [dictTotal_append]
    simp [dictTotal]
  · rw [dictGet_append_of_not_mem 0 _ h]
    simp [dictGet]

theorem pairwise_le_getD {l : List ℚ} (hs : l.Pairwise (· ≤ ·)) {i j : Nat}
    (hij : i ≤ j) (hj : j < l.length) : l.getD i 0 ≤ l.getD j 0 := by
  rcases Nat.eq_or_lt_of_le hij with he | hlt
  · rw [he]
  · have hi : i < l.length := lt_trans hlt hj
    rw [List.getD_eq_getElem l 0 hi, List.getD_eq_getElem l 0 hj]
    exact List.pairwise_iff_getElem.mp hs i j hi hj hlt

theorem pairwise_lt_getD {l : List ℚ} (hs : l.Pairwise (· < ·)) {i j : Nat}
    (hij : i < j) (hj : j < l.length) : l.getD i 0 < l.getD j 0 := by
  have hi : i < l.length := lt_trans hij hj
  rw [List.getD_eq_getElem l 0 hi, List.getD_eq_getElem l 0 hj]
  exact List.pairwise_iff_getElem.mp hs i j hi hj hij

theorem pyGet_ofNat {l : List ℚ} {n : Nat} (hn : n < l.length) :
    pyGet l (n : ℤ) = some (l.getD n 0) := by
  unfold pyGet
  rw [if_pos (Int.natCast_nonneg n)]
  rw [Int.toNat_natCast]
  rw [List.getElem?_eq_getElem hn, List.getD_eq_getElem l 0 hn]

theorem pyGet_neg_one {l : List ℚ} (hne : l ≠ []) :
    pyGet l (-1) = some (l.getD (l.length - 1) 0) := by
  have hlen : 1 ≤ l.length := List.length_pos.mpr hne
  unfold pyGet
  rw [if_neg (by norm_num), if_pos (by norm_num; exact_mod_cast hlen)]
  have h1 : l.length - (-(-1 : ℤ)).toNat = l.length - 1 := by norm_num
  rw [h1]
  have h2 : l.length - 1 < l.length := by omega
  rw [List.getElem?_eq_getElem h2, List.getD_eq_getElem l 0 h2]

/-- The binary-search loop invariant: starting from any window `[lo, hi)`
such that everything left of `lo` is `≤ x` and everything from `hi` on is
`> x`, the loop lands on the cut point between the `≤ x` prefix and the
`> x` suffix — for any sufficient fuel. -/
theorem bisectGo_spec {l : List ℚ} (x : ℚ) (hs : l.Pairwise (· ≤ ·)) :
    ∀ (fuel lo hi : Nat), hi ≤ l.length → hi - lo ≤ fuel → lo ≤ hi →
    (∀ i, i < lo → i < l.length → l.getD i 0 ≤ x) →
    (∀ i, hi ≤ i → i < l.length → x < l.getD i 0) →
    lo ≤ bisectGo l x fuel lo hi ∧ bisectGo l x fuel lo hi ≤ hi ∧
    (∀ i, i < bisectGo l x fuel lo hi → i < l.length → l.getD i 0 ≤ x) ∧
    (∀ i, bisectGo l x fuel lo hi ≤ i → i < l.length → x < l.getD i 0) := by
  intro fuel
  induction fuel with
  | zero =>
    intro lo hi hlen hfuel hlohi hlo hhi
    have heq : lo = hi := by omega
    simp only [bisectGo]
    exact ⟨le_refl lo, le_of_eq heq, hlo, fun i hi1 hi2 => hhi i (heq ▸ hi1) hi2⟩
  | succ n ih =>
    intro lo hi hlen hfuel hlohi hlo hhi
    by_cases hlh : lo < hi
    · simp only [bisectGo, if_pos hlh]
      by_cases hx : x < l.getD ((lo + hi) / 2) 0
      · rw [if_pos hx]
        have hmlt : (lo + hi) / 2 < hi := by omega
        have hres := ih lo ((lo + hi) / 2) (le_trans (le_of_lt hmlt) hlen) (by omega)
          (by omega) hlo
          (fun i hi1 hi2 => lt_of_lt_of_le hx (pairwise_le_getD hs hi1 hi2))
        exact ⟨hres.1, le_trans hres.2.1 (le_of_lt hmlt), hres.2.2.1,
          hres.2.2.2⟩
      · rw [if_neg hx]
        push_neg at hx
        have hmlt : (lo + hi) / 2 < hi := by omega
        have hmlen : (lo + hi) / 2 < l.length := lt_of_lt_of_le hmlt hlen
        have hres := ih ((lo + hi) / 2 + 1) hi hlen (by omega) (by omega)
          (fun i hi1 hi2 => le_trans (pairwise_le_getD hs (by omega) hmlen) hx)
          hhi
        exact ⟨le_trans (by omega) hres.1, hres.2.1, hres.2.2.1, hres.2.2.2⟩
    · simp only [bisectGo, if_neg hlh]
      have heq : lo = hi := by omega
      exact ⟨le_refl lo, le_of_eq heq, hlo, fun i hi1 hi2 => hhi i (heq ▸ hi1) hi2⟩

/-- `bisect` on a sorted list: the cut-point characterization. -/
theorem bisect_spec {l : List ℚ} (x : ℚ) (hs : l.Pairwise (· ≤ ·)) :
    bisect l x ≤ l.length ∧
    (∀ i, i < bisect l x → i < l.length → l.getD i 0 ≤ x) ∧
    (∀ i, bisect l x ≤ i → i < l.length → x < l.getD i 0) := by
  have h := bisectGo_spec x hs (l.length + 1) 0 l.length (le_refl _) (by omega)
    (by omega) (by omega) (fun i hi1 hi2 => absurd hi1 (by omega))
  exact ⟨h.2.1, h.2.2.1, h.2.2.2⟩

theorem countP_eq_of_cut (p : ℚ → Bool) :
    ∀ (l : List ℚ) (r : Nat), r ≤ l.length →
    (∀ i, i < r → i < l.length → p (l.getD i 0) = true) →
    (∀ i, r ≤ i → i < l.length → p (l.getD i 0) = false) →
    l.countP p = r := by
  intro l
  induction l with
  | nil =>
    intro r h1 _ _
    simp at h1
    simp [h1]
  | cons a tl ih =>
    intro r h1 h2 h3
    rw [List.countP_cons]
    cases r with
    | zero =>
      have ha : p a = false := by
        have := h3 0 (by omega) (by simp)
        simpa using this
      have htl : tl.countP p = 0 := ih 0 (by omega)
        (fun i hi1 _ => absurd hi1 (by omega))
        (fun i _ hi2 => by
          have := h3 (i + 1) (by omega) (by simp; omega)
          simpa using this)
      simp [htl, ha]
    | succ r₀ =>
      have ha : p a = true := by
        have := h2 0 (by omega) (by simp)
        simpa using this
      have htl : tl.countP p = r₀ := ih r₀ (by simp at h1; omega)
        (fun i hi1 hi2 => by
          have := h2 (i + 1) (by omega) (by simp; omega)
          simpa using this)
        (fun i hi1 hi2 => by
          have := h3 (i + 1) (by omega) (by simp; omega)
          simpa using this)
      simp [htl, ha]

/-- On a sorted list, right bisection returns the number of entries `≤ x`,
i.e. the rightmost insertion point (a query equal to stored entries lands
after all of them). -/
theorem bisect_eq_countP {l : List ℚ} (hs : l.Pairwise (· ≤ ·)) (x : ℚ) :
    bisect l x = l.countP (fun y => decide (y ≤ x)) := by
  obtain ⟨h1, h2, h3⟩ := bisect_spec x hs
  exact (countP_eq_of_cut (fun y => decide (y ≤ x)) l (bisect l x) h1
    (fun i hi1 hi2 => decide_eq_true (h2 i hi1 hi2))
    (fun i hi1 hi2 => decide_eq_false (not_le.mpr (h3 i hi1 hi2)))).symm

theorem getElem?_eq_some_getD {l : List ℚ} {n : Nat} (hn : n < l.length) :
    l[n]? = some (l.getD n 0) := by
  rw [List.getElem?_eq_getElem hn, List.getD_eq_getElem l 0 hn]

/-- C3 (amended): for a properly constructed non-empty CDF whose cumulative
probabilities are strictly increasing (as produced by the constructor from
positive counts), `Value(p)` fails, with OutOfRange, exactly when `p < 0`
or `p > 1`; `Value(0)` is the smallest stored value, `Value(1)` the
largest; and for interior `p` the result is the value at the first index
whose cumulative probability is `≥ p` — the smallest value whose cumulative
probability is `≥ p`, with `ps[index-1] == p` resolved to the lower
boundary index. -/
theorem cdf_value_spec (c : Cdf) (hc : ProperCdf c)
    (hstrict : c.ps.Pairwise (· < ·)) (p : ℚ) :
    ((∃ e, c.Value p = Except.error e) ↔ (p < 0 ∨ 1 < p)) ∧
    (p < 0 ∨ 1 < p → c.Value p = Except.error Err.outOfRange) ∧
    (c.Value 0 = Except.ok (c.xs.getD 0 0) ∧ ∀ y ∈ c.xs, c.xs.getD 0 0 ≤ y) ∧
    (c.Value 1 = Except.ok (c.xs.getD (c.xs.length - 1) 0) ∧
      ∀ y ∈ c.xs, y ≤ c.xs.getD (c.xs.length - 1) 0) ∧
    (0 < p → p < 1 → ∃ i, i < c.ps.length ∧
      c.Value p = Except.ok (c.xs.getD i 0) ∧ p ≤ c.ps.getD i 0 ∧
      (∀ j, j < i → c.ps.getD j 0 < p) ∧
      (∀ j, j < c.ps.length → p ≤ c.ps.getD j 0 →
        c.xs.getD i 0 ≤ c.xs.getD j 0)) := by
  obtain ⟨hne, hlen, hxs, hps, hrange, hlast⟩ := hc
  have hpos : 0 < c.xs.length := List.length_pos.mpr hne
  have hppos : 0 < c.ps.length := hlen ▸ hpos
  have hpsne : c.ps ≠ [] := List.length_pos.mp hppos
  have hx0 : c.xs[0]? = some (c.xs.getD 0 0) := getElem?_eq_some_getD hpos
  have hmin : ∀ y ∈ c.xs, c.xs.getD 0 0 ≤ y := by
    intro y hy
    obtain ⟨i, hi, he⟩ := List.mem_iff_getElem.mp hy
    rw [← he, ← List.getD_eq_getElem c.xs 0 hi]
    exact pairwise_le_getD hxs (by omega) hi
  have hmax : ∀ y ∈ c.xs, y ≤ c.xs.getD (c.xs.length - 1) 0 := by
    intro y hy
    obtain ⟨i, hi, he⟩ := List.mem_iff_getElem.mp hy
    rw [← he, ← List.getD_eq_getElem c.xs 0 hi]
    exact pairwise_le_getD hxs (by omega) (by omega)
  have hval0 : c.Value 0 = Except.ok (c.xs.getD 0 0) := by
    unfold Cdf.Value
    rw [if_neg (by norm_num), if_pos rfl, hx0]
  have hval1 : c.Value 1 = Except.ok (c.xs.getD (c.xs.length - 1) 0) := by
    unfold Cdf.Value
    rw [if_neg (by norm_num), if_neg (by norm_num), if_pos rfl,
      pyGet_neg_one hne]
  have hinterior : 0 < p → p < 1 → ∃ i, i < c.ps.length ∧
      c.Value p = Except.ok (c.xs.getD i 0) ∧ p ≤ c.ps.getD i 0 ∧
      (∀ j, j < i → c.ps.getD j 0 < p) ∧
      (∀ j, j < c.ps.length → p ≤ c.ps.getD j 0 →
        c.xs.getD i 0 ≤ c.xs.getD j 0) := by
    intro hp0 hp1
    have hrg : ¬ (p < 0 ∨ 1 < p) := by
      rintro (h | h) <;> linarith
    obtain ⟨hble, hcut1, hcut2⟩ := bisect_spec p hps
    have hklt : bisect c.ps p < c.ps.length := by
      by_contra hcon
      push_neg at hcon
      have h1 : c.ps.getD (c.ps.length - 1) 0 ≤ p := hcut1 (c.ps.length - 1)
        (by omega) (by omega)
      rw [hlast] at h1
      linarith
    by_cases hk0 : bisect c.ps p = 0
    · have hval : c.Value p = Except.ok (c.xs.getD 0 0) := by
        unfold Cdf.Value
        rw [if_neg hrg, if_neg (ne_of_gt hp0), if_neg (ne_of_lt hp1)]
        dsimp only
        rw [hk0]
        rw [show ((0 : ℕ) : ℤ) - 1 = (-1 : ℤ) by norm_num]
        rw [pyGet_neg_one hpsne]
        dsimp only
        rw [hlast, if_neg (ne_of_lt hp1), hx0]
      refine ⟨0, hppos, hval, le_of_lt (hcut2 0 (by omega) hppos), ?_, ?_⟩
      · intro j hj
        omega
      · intro j hj _
        exact pairwise_le_getD hxs (by omega) (by omega)
    · have hk1 : 1 ≤ bisect c.ps p := by omega
      have hkm1 : bisect c.ps p - 1 < c.ps.length := by omega
      have hkm1x : bisect c.ps p - 1 < c.xs.length := by omega
      have hkx : bisect c.ps p < c.xs.length := by omega
      have hcast : (bisect c.ps p : ℤ) - 1 = ((bisect c.ps p - 1 : ℕ) : ℤ) := by
        omega
      have hqle : c.ps.getD (bisect c.ps p - 1) 0 ≤ p :=
        hcut1 (bisect c.ps p - 1) (by omega) hkm1
      by_cases hpq : p = c.ps.getD (bisect c.ps p - 1) 0
      · have hval : c.Value p =
            Except.ok (c.xs.getD (bisect c.ps p - 1) 0) := by
          unfold Cdf.Value
          rw [if_neg hrg, if_neg (ne_of_gt hp0), if_neg (ne_of_lt hp1)]
          dsimp only
          rw [hcast, pyGet_ofNat hkm1]
          dsimp only
          rw [if_pos hpq, pyGet_ofNat hkm1x]
        refine ⟨bisect c.ps p - 1, hkm1, hval, le_of_eq hpq, ?_, ?_⟩
        · intro j hj
          rw [hpq]
          exact pairwise_lt_getD hstrict hj hkm1
        · intro j hj hpj
          by_cases hjk : j < bisect c.ps p - 1
          · exact absurd hpj (not_le.mpr (by
              rw [hpq]
              exact pairwise_lt_getD hstrict hjk hkm1))
          · exact pairwise_le_getD hxs (by omega) (by omega)
      · have hqlt : c.ps.getD (bisect c.ps p - 1) 0 < p :=
          lt_of_le_of_ne hqle (fun he => hpq he.symm)
        have hval : c.Value p = Except.ok (c.xs.getD (bisect c.ps p) 0) := by
          unfold Cdf.Value
          rw [if_neg hrg, if_neg (ne_of_gt hp0), if_neg (ne_of_lt hp1)]
          dsimp only
          rw [hcast, pyGet_ofNat hkm1]
          dsimp only
          rw [if_neg hpq, getElem?_eq_some_getD hkx]
        refine ⟨bisect c.ps p, hklt, hval,
          le_of_lt (hcut2 (bisect c.ps p) (le_refl _) hklt), ?_, ?_⟩
        · intro j hj
          exact lt_of_le_of_lt (pairwise_le_getD hps (by omega) hkm1) hqlt
        · intro j hj hpj
          by_cases hjk : j < bisect c.ps p
          · exact absurd hpj (not_le.mpr
              (lt_of_le_of_lt (pairwise_le_getD hps (by omega) hkm1) hqlt))
          · exact pairwise_le_getD hxs (by omega) (by omega)
  have herr : p < 0 ∨ 1 < p → c.Value p = Except.error Err.outOfRange := by
    intro h
    unfold Cdf.Value
    rw [if_pos h]
  refine ⟨?_, herr, ⟨hval0, hmin⟩, ⟨hval1, hmax⟩, hinterior⟩
  constructor
  · rintro ⟨e, he⟩
    by_contra hcon
    push_neg at hcon
    rcases eq_or_lt_of_le hcon.1 with he0 | hgt0
    · rw [← he0] at he
      rw [hval0] at he
      cases he
    · rcases eq_or_lt_of_le hcon.2 with he1 | hlt1
      · rw [he1] at he
        rw [hval1] at he
        cases he
      · obtain ⟨i, _, hv, _⟩ := hinterior hgt0 hlt1
        rw [hv] at he
        cases he
  · intro h
    exact ⟨Err.outOfRange, herr h⟩

/-- C3 witness: on the strictly-increasing CDF xs=[1,2,3], ps=[1/6,1/2,1],
`Value(1/2)` hits the stored cumulative probability 1/2 exactly and
returns the lower boundary value 2 — the smallest value with cumulative
probability ≥ 1/2 — and `Value(0)`, `Value(1)` are the extremes. -/
theorem cdf_value_spec_witness :
    ProperCdf (Cdf.mk [1, 2, 3] [1 / 6, 1 / 2, 1]) ∧
    List.Pairwise (· < ·) [(1 : ℚ) / 6, 1 / 2, 1] ∧
    Cdf.Value (Cdf.mk [1, 2, 3] [1 / 6, 1 / 2, 1]) 0 = Except.ok 1 ∧
    Cdf.Value (Cdf.mk [1, 2, 3] [1 / 6, 1 / 2, 1]) 1 = Except.ok 3 ∧
    ∃ i, i < 3 ∧
      Cdf.Value (Cdf.mk [1, 2, 3] [1 / 6, 1 / 2, 1]) (1 / 2) =
        Except.ok ([(1 : ℚ), 2, 3].getD i 0) ∧
      (1 / 2 : ℚ) ≤ [(1 : ℚ) / 6, 1 / 2, 1].getD i 0 := by
  have hp : ProperCdf (Cdf.mk [1, 2, 3] [1 / 6, 1 / 2, 1]) := by
    unfold ProperCdf
    refine ⟨by simp, by simp, by norm_num [List.pairwise_cons],
      by norm_num [List.pairwise_cons], by norm_num, by norm_num⟩
  have hstrict : List.Pairwise (· < ·) [(1 : ℚ) / 6, 1 / 2, 1] := by
    norm_num [List.pairwise_cons]
  have h := cdf_value_spec (Cdf.mk [1, 2, 3] [1 / 6, 1 / 2, 1]) hp hstrict (1 / 2)
  refine ⟨hp, hstrict, by simpa using h.2.2.1.1, by simpa using h.2.2.2.1.1, ?_⟩
  obtain ⟨i, hi, hv, hcum, _⟩ := h.2.2.2.2 (by norm_num) (by norm_num)
  exact ⟨i, by simpa using hi, hv, hcum⟩

/-- C3 counterexample: the plateaued CDF xs=[1,2,3], ps=[1/2,1/2,1]
satisfies the spec's "properly constructed" invariant (non-decreasing ps),
yet `Value(1/2)` returns 2 although the stored value 1 already has
cumulative probability 1/2 ≥ p — so the result is NOT the smallest value
whose cumulative probability is ≥ p. -/
theorem cdf_value_plateau_counterexample :
    ProperCdf (Cdf.mk [1, 2, 3] [1 / 2, 1 / 2, 1]) ∧
    Cdf.Value (Cdf.mk [1, 2, 3] [1 / 2, 1 / 2, 1]) (1 / 2) = Except.ok 2 ∧
    (1 / 2 : ℚ) ≤ [(1 : ℚ) / 2, 1 / 2, 1].getD 0 0 ∧
    [(1 : ℚ), 2, 3].getD 0 0 = 1 ∧ ¬ ((2 : ℚ) ≤ 1) := by
  refine ⟨?_, ?_, by norm_num, by norm_num, by norm_num⟩
  · unfold ProperCdf
    refine ⟨by simp, by simp, by norm_num [List.pairwise_cons],
      by norm_num [List.pairwise_cons], by norm_num, by norm_num⟩
  · have hb : bisect [(1 : ℚ) / 2, 1 / 2, 1] (1 / 2) = 2 := by
      rw [bisect_eq_countP (by norm_num [List.pairwise_cons])]
      norm_num [List.countP_cons]
    unfold Cdf.Value
    rw [if_neg (by norm_num), if_neg (by norm_num), if_neg (by norm_num)]
    dsimp only
    rw [hb]
    rw [show ((2 : ℕ) : ℤ) - 1 = ((1 : ℕ) : ℤ) by norm_num]
    rw [pyGet_ofNat (by norm_num)]
    dsimp only
    rw [if_pos (by norm_num), pyGet_ofNat (by norm_num)]
    norm_num

/-- C6: for a properly constructed non-empty CDF, `Prob(x)` returns 0 when
`x` is below the smallest stored value (`xs[0]`, the minimum of the sorted
`xs`), and otherwise the cumulative probability at the position immediately
before the rightmost insertion point of `x` in `xs` — the number of stored
values `≤ x`, so a query equal to a stored value falls after all equal
entries. -/
theorem cdf_prob_spec (c : Cdf) (hc : ProperCdf c) (x : ℚ) :
    (∀ y ∈ c.xs, c.xs.getD 0 0 ≤ y) ∧
    (x < c.xs.getD 0 0 → c.Prob x = Except.ok 0) ∧
    (c.xs.getD 0 0 ≤ x →
      c.Prob x =
        Except.ok (c.ps.getD (c.xs.countP (fun y => decide (y ≤ x)) - 1) 0)) := by
  obtain ⟨hne, hlen, hxs, hps, hrange, hlast⟩ := hc
  have hpos : 0 < c.xs.length := List.length_pos.mpr hne
  have hx0 : c.xs[0]? = some (c.xs.getD 0 0) := by
    rw [List.getElem?_eq_getElem hpos, List.getD_eq_getElem c.xs 0 hpos]
  refine ⟨?_, ?_, ?_⟩
  · intro y hy
    obtain ⟨i, hi, he⟩ := List.mem_iff_getElem.mp hy
    rw [← he, ← List.getD_eq_getElem c.xs 0 hi]
    exact pairwise_le_getD hxs (by omega) hi
  · intro hlt
    unfold Cdf.Prob
    rw [hx0]
    dsimp only
    rw [if_pos hlt]
  · intro hge
    unfold Cdf.Prob
    rw [hx0]
    dsimp only
    rw [if_neg (not_lt.mpr hge)]
    obtain ⟨hble, hcut1, hcut2⟩ := bisect_spec x hxs
    have hge1 : 1 ≤ bisect c.xs x := by
      by_contra hcon
      push_neg at hcon
      exact absurd hge (not_le.mpr (hcut2 0 (by omega) hpos))
    have hidx : bisect c.xs x - 1 < c.ps.length := by omega
    have hcast : (bisect c.xs x : ℤ) - 1 = ((bisect c.xs x - 1 : ℕ) : ℤ) := by
      omega
    rw [hcast, pyGet_ofNat hidx]
    dsimp only
    rw [bisect_eq_countP hxs]

/-- C6 witness: the spec's example CDF (xs = [1,2,3], ps = [1/6,1/2,1]);
the query 2 equals a stored value, falls after it, and yields 1/2. -/
theorem cdf_prob_spec_witness :
    ProperCdf (Cdf.mk [1, 2, 3] [1 / 6, 1 / 2, 1]) ∧
    Cdf.Prob (Cdf.mk [1, 2, 3] [1 / 6, 1 / 2, 1]) 2 = Except.ok (1 / 2) := by
  have hp : ProperCdf (Cdf.mk [1, 2, 3] [1 / 6, 1 / 2, 1]) := by
    unfold ProperCdf
    refine ⟨by simp, by simp, by norm_num [List.pairwise_cons],
      by norm_num [List.pairwise_cons], by norm_num, by norm_num⟩
  refine ⟨hp, ?_⟩
  have h := (cdf_prob_spec (Cdf.mk [1, 2, 3] [1 / 6, 1 / 2, 1]) hp 2).2.2
    (by norm_num)
  rw [h]
  norm_num [List.countP_cons]

theorem keysNodup_dictSet {s : List (α × ℚ)} (hnd : keysNodup s)
    (x : α) (y : ℚ) : keysNodup (dictSet x y s) := by
  unfold keysNodup
  by_cases hx : x ∈ dictKeys s
  · rw [dictKeys_dictSet_of_mem y hx]
    exact hnd
  · rw [dictKeys_dictSet_of_not_mem y hx, List.nodup_append]
    refine ⟨hnd, List.nodup_singleton x, ?_⟩
    intro a ha hax
    rw [List.mem_singleton.mp hax] at ha
    exact hx ha

theorem likelihood_nonneg (h d : String) : 0 ≤ Likelihood h d := by
  unfold Likelihood
  by_cases h1 : h = d
  · rw [if_pos h1]
  · rw [if_neg h1]
    by_cases h2 : h = "A"
    · rw [if_pos h2]
      norm_num
    · rw [if_neg h2]
      norm_num

theorem dictKeys_map_snd {α : Type} [DecidableEq α] (s : List (α × ℚ))
    (f : α × ℚ → ℚ) : dictKeys (s.map (fun p => (p.1, f p))) = dictKeys s := by
  unfold dictKeys
  rw [List.map_map]
  exact List.map_congr_left (fun p _ => rfl)

theorem dictMult_eq_map {s : List (String × ℚ)} (hnd : keysNodup s)
    {k : String} (hk : k ∈ dictKeys s) (v : ℚ) :
    dictMult k v s = s.map (fun p => if p.1 = k then (p.1, p.2 * v) else p) := by
  unfold dictMult dictSet
  rw [if_pos hk]
  apply List.map_congr_left
  intro p hp
  by_cases hpk : p.1 = k
  · rw [if_pos hpk, if_pos hpk]
    have hmem : (k, p.2) ∈ s := by
      have hpe : p = (k, p.2) := by
        rw [← hpk]
      rw [← hpe]
      exact hp
    rw [dictGet_of_mem_nodup hnd hmem, hpk]
  · rw [if_neg hpk, if_neg hpk]

theorem foldl_dictMult_eq_map (f : String → ℚ) :
    ∀ (ks : List String) (s : List (String × ℚ)), keysNodup s → ks.Nodup →
    (∀ k ∈ ks, k ∈ dictKeys s) →
    ks.foldl (fun t k => dictMult k (f k) t) s =
      s.map (fun p => if p.1 ∈ ks then (p.1, p.2 * f p.1) else p) := by
  intro ks
  induction ks with
  | nil =>
    intro s _ _ _
    simp only [List.foldl_nil]
    have h1 : s.map (fun p : String × ℚ =>
        if p.1 ∈ ([] : List String) then (p.1, p.2 * f p.1) else p) = s.map id := by
      apply List.map_congr_left
      intro p _
      rw [if_neg (List.not_mem_nil _)]
      rfl
    rw [h1, List.map_id]
  | cons k ks ih =>
    intro s hnd hksnd hsub
    rw [List.nodup_cons] at hksnd
    have hk : k ∈ dictKeys s := hsub k (List.mem_cons_self _ _)
    simp only [List.foldl_cons]
    rw [dictMult_eq_map hnd hk (f k)]
    have hkeys₁ : dictKeys (s.map (fun p =>
        if p.1 = k then (p.1, p.2 * f k) else p)) = dictKeys s := by
      unfold dictKeys
      rw [List.map_map]
      apply List.map_congr_left
      intro p _
      by_cases hpk : p.1 = k
      · simp [hpk]
      · simp [hpk]
    have hnd₁ : keysNodup (s.map (fun p =>
        if p.1 = k then (p.1, p.2 * f k) else p)) := by
      unfold keysNodup
      rw [hkeys₁]
      exact hnd
    rw [ih _ hnd₁ hksnd.2 (fun r hr => hkeys₁ ▸ hsub r (List.mem_cons_of_mem _ hr))]
    rw [List.map_map]
    apply List.map_congr_left
    intro p _
    simp only [Function.comp]
    by_cases hpk : p.1 = k
    · rw [if_pos hpk]
      have hnotin : p.1 ∉ ks := hpk ▸ hksnd.1
      rw [if_neg hnotin, if_pos (List.mem_cons.mpr (Or.inl hpk))]
      rw [hpk]
    · rw [if_neg hpk]
      by_cases hin : p.1 ∈ ks
      · rw [if_pos hin, if_pos (List.mem_cons.mpr (Or.inr hin))]
      · rw [if_neg hin, if_neg (by
          intro hc
          rcases List.mem_cons.mp hc with he | ht
          · exact hpk he
          · exact hin ht)]

/-- `for hypo in self.Values(): self.Mult(hypo, self.Likelihood(hypo, data))`
on a dict (unique keys) multiplies each stored weight once, pointwise. -/
theorem suiteUpdateLoop_eq_map {s : List (String × ℚ)} (hnd : keysNodup s)
    (d : String) :
    suiteUpdateLoop d s = s.map (fun p => (p.1, p.2 * Likelihood p.1 d)) := by
  unfold suiteUpdateLoop
  rw [foldl_dictMult_eq_map (fun k => Likelihood k d) (dictKeys s) s hnd hnd
    (fun k hk => hk)]
  apply List.map_congr_left
  intro p hp
  have hmem : p.1 ∈ dictKeys s := by
    unfold dictKeys
    exact List.mem_map.mpr ⟨p, hp, rfl⟩
  rw [if_pos hmem]

theorem dictKeys_suiteUpdateLoop {s : List (String × ℚ)} (hnd : keysNodup s)
    (d : String) : dictKeys (suiteUpdateLoop d s) = dictKeys s := by
  rw [suiteUpdateLoop_eq_map hnd]
  exact dictKeys_map_snd s _

theorem keysNodup_suiteUpdateLoop {s : List (String × ℚ)} (hnd : keysNodup s)
    (d : String) : keysNodup (suiteUpdateLoop d s) := by
  unfold keysNodup
  rw [dictKeys_suiteUpdateLoop hnd]
  exact hnd

theorem nonneg_suiteUpdateLoop {s : List (String × ℚ)} (hnd : keysNodup s)
    (hnn : ∀ p ∈ s, 0 ≤ p.2) (d : String) :
    ∀ p ∈ suiteUpdateLoop d s, 0 ≤ p.2 := by
  rw [suiteUpdateLoop_eq_map hnd]
  intro p hp
  obtain ⟨q, hq, he⟩ := List.mem_map.mp hp
  rw [← he]
  exact mul_nonneg (hnn q hq) (likelihood_nonneg q.1 d)

theorem suiteUpdateLoop_scale {s : List (String × ℚ)} (hnd : keysNodup s)
    (d : String) (c : ℚ) :
    suiteUpdateLoop d (s.map (fun p => (p.1, p.2 * c))) =
      (suiteUpdateLoop d s).map (fun p => (p.1, p.2 * c)) := by
  have hnd₂ : keysNodup (s.map (fun p => (p.1, p.2 * c))) := by
    unfold keysNodup
    rw [dictKeys_map_snd]
    exact hnd
  rw [suiteUpdateLoop_eq_map hnd₂, suiteUpdateLoop_eq_map hnd]
  rw [List.map_map, List.map_map]
  apply List.map_congr_left
  intro p _
  simp only [Function.comp]
  exact congrArg (Prod.mk p.1) (by ring)

theorem foldl_loop_scale (ds : List String) :
    ∀ (s : List (String × ℚ)), keysNodup s → ∀ (c : ℚ),
    ds.foldl (fun t d => suiteUpdateLoop d t) (s.map (fun p => (p.1, p.2 * c))) =
      (ds.foldl (fun t d => suiteUpdateLoop d t) s).map
        (fun p => (p.1, p.2 * c)) := by
  induction ds with
  | nil => intro s _ c; rfl
  | cons d ds ih =>
    intro s hnd c
    simp only [List.foldl_cons]
    rw [suiteUpdateLoop_scale hnd d c]
    exact ih (suiteUpdateLoop d s) (keysNodup_suiteUpdateLoop hnd d) c

theorem dictGet_allZero {α : Type} [DecidableEq α] {s : List (α × ℚ)}
    (hz : ∀ p ∈ s, p.2 = 0) (x : α) : dictGet x 0 s = 0 := by
  induction s with
  | nil => rfl
  | cons p rest ih =>
    unfold dictGet
    by_cases hp : p.1 = x
    · rw [if_pos hp]
      exact hz p (List.mem_cons_self _ _)
    · rw [if_neg hp]
      exact ih (fun q hq => hz q (List.mem_cons_of_mem _ hq))

theorem allZero_dictMult {α : Type} [DecidableEq α] {s : List (α × ℚ)}
    (hz : ∀ p ∈ s, p.2 = 0) (k : α) (v : ℚ) :
    ∀ p ∈ dictMult k v s, p.2 = 0 := by
  unfold dictMult dictSet
  rw [dictGet_allZero hz k]
  by_cases hk : k ∈ dictKeys s
  · rw [if_pos hk]
    intro p hp
    obtain ⟨q, hq, he⟩ := List.mem_map.mp hp
    rw [← he]
    by_cases hqk : q.1 = k
    · rw [if_pos hqk]
      ring
    · rw [if_neg hqk]
      exact hz q hq
  · rw [if_neg hk]
    intro p hp
    rcases List.mem_append.mp hp with hin | hin
    · exact hz p hin
    · have : p = (k, 0 * v) := List.mem_singleton.mp hin
      rw [this]
      ring

theorem allZero_suiteUpdateLoop {s : List (String × ℚ)}
    (hz : ∀ p ∈ s, p.2 = 0) (d : String) :
    ∀ p ∈ suiteUpdateLoop d s, p.2 = 0 := by
  unfold suiteUpdateLoop
  have hgen : ∀ (ks : List String) (t : List (String × ℚ)),
      (∀ p ∈ t, p.2 = 0) →
      ∀ p ∈ ks.foldl (fun u k => dictMult k (Likelihood k d) u) t, p.2 = 0 := by
    intro ks
    induction ks with
    | nil => intro t ht; exact ht
    | cons k ks ih =>
      intro t ht
      simp only [List.foldl_cons]
      exact ih _ (allZero_dictMult ht k _)
  exact hgen (dictKeys s) s hz

theorem allZero_foldl_loop (ds : List String) :
    ∀ (s : List (String × ℚ)), (∀ p ∈ s, p.2 = 0) →
    ∀ p ∈ ds.foldl (fun t d => suiteUpdateLoop d t) s, p.2 = 0 := by
  induction ds with
  | nil => intro s hz; exact hz
  | cons d ds ih =>
    intro s hz
    simp only [List.foldl_cons]
    exact ih _ (allZero_suiteUpdateLoop hz d)

theorem dictTotal_eq_zero_iff {α : Type} [DecidableEq α]
    {s : List (α × ℚ)} (hnn : ∀ p ∈ s, 0 ≤ p.2) :
    dictTotal s = 0 ↔ ∀ p ∈ s, p.2 = 0 := by
  induction s with
  | nil => simp [dictTotal]
  | cons p rest ih =>
    have hrest : 0 ≤ dictTotal rest := by
      unfold dictTotal
      exact List.sum_nonneg (by
        intro y hy
        obtain ⟨r, hr, he⟩ := List.mem_map.mp hy
        rw [← he]
        exact hnn r (List.mem_cons_of_mem _ hr))
    have hcons : dictTotal (p :: rest) = p.2 + dictTotal rest := by
      simp [dictTotal]
    constructor
    · intro hz
      rw [hcons] at hz
      have hp : 0 ≤ p.2 := hnn p (List.mem_cons_self _ _)
      have hp0 : p.2 = 0 := by linarith
      have hr0 : dictTotal rest = 0 := by linarith
      intro q hq
      rcases List.mem_cons.mp hq with he | ht
      · rw [he]; exact hp0
      · exact (ih (fun r hr => hnn r (List.mem_cons_of_mem _ hr))).mp hr0 q ht
    · intro hz
      rw [hcons, hz p (List.mem_cons_self _ _),
        (ih (fun r hr => hnn r (List.mem_cons_of_mem _ hr))).mpr
          (fun q hq => hz q (List.mem_cons_of_mem _ hq))]
      ring

theorem dictTotal_allZero {α : Type} [DecidableEq α] {s : List (α × ℚ)}
    (hz : ∀ p ∈ s, p.2 = 0) : dictTotal s = 0 := by
  unfold dictTotal
  apply List.sum_eq_zero
  intro y hy
  obtain ⟨r, hr, he⟩ := List.mem_map.mp hy
  rw [← he]
  exact hz r hr

theorem pmfNormalize_scale_fst {s : List (String × ℚ)} {c : ℚ} (hc : c ≠ 0)
    (ht : dictTotal s ≠ 0) :
    (pmfNormalize 1 (s.map (fun p => (p.1, p.2 * c)))).1 =
      (pmfNormalize 1 s).1 := by
  have htc : dictTotal (s.map (fun p => (p.1, p.2 * c))) = dictTotal s * c :=
    dictTotal_map_mul s c
  simp only [pmfNormalize, htc]
  rw [if_neg (mul_ne_zero ht hc), if_neg ht]
  simp only
  rw [List.map_map]
  apply List.map_congr_left
  intro p _
  simp only [Function.comp]
  apply congrArg (Prod.mk p.1)
  field_simp
  ring

/-- C1 main induction: from any state with unique keys, non-negative
weights and total 1 (the invariant `Normalize` re-establishes), updating
once per datum agrees with the batched multiply-then-normalize-once, both
on success (identical posterior state) and on failure (ZeroTotal). -/
theorem updateSeq_eq_updateSet_aux (dataset : List String) :
    ∀ (s : List (String × ℚ)), keysNodup s → (∀ p ∈ s, 0 ≤ p.2) →
    dictTotal s = 1 →
    suiteUpdateSeq dataset s = Except.map Prod.fst (suiteUpdateSet dataset s) := by
  induction dataset with
  | nil =>
    intro s _ _ htot
    have hnorm : pmfNormalize 1 s =
        (s.map (fun p => (p.1, p.2 * (1 / dictTotal s))),
         Except.ok (dictTotal s)) := by
      simp only [pmfNormalize]
      rw [if_neg (by rw [htot]; norm_num)]
    have hid : s.map (fun p => (p.1, p.2 * (1 / dictTotal s))) = s := by
      rw [htot]
      have : ∀ p ∈ s, (p.1, p.2 * ((1 : ℚ) / 1)) = p := by
        intro p _
        norm_num
      calc s.map (fun p => (p.1, p.2 * ((1 : ℚ) / 1)))
          = s.map id := List.map_congr_left (fun p hp => this p hp)
        _ = s := List.map_id s
    unfold suiteUpdateSeq suiteUpdateSet
    simp only [List.foldl_nil]
    rw [hnorm]
    simp only [Except.map, hid]
  | cons d ds ih =>
    intro s hnd hnn htot
    have hndm : keysNodup (suiteUpdateLoop d s) := keysNodup_suiteUpdateLoop hnd d
    have hnnm : ∀ p ∈ suiteUpdateLoop d s, 0 ≤ p.2 :=
      nonneg_suiteUpdateLoop hnd hnn d
    by_cases hz : dictTotal (suiteUpdateLoop d s) = 0
    · have hnorm : pmfNormalize 1 (suiteUpdateLoop d s) =
          (suiteUpdateLoop d s, Except.error Err.zeroTotal) := by
        simp only [pmfNormalize]
        rw [if_pos hz]
      have hLHS : suiteUpdateSeq (d :: ds) s = Except.error Err.zeroTotal := by
        unfold suiteUpdateSeq suiteUpdate
        rw [hnorm]
      have hzall : ∀ p ∈ suiteUpdateLoop d s, p.2 = 0 :=
        (dictTotal_eq_zero_iff hnnm).mp hz
      have hztot : dictTotal (ds.foldl (fun t d₂ => suiteUpdateLoop d₂ t)
          (suiteUpdateLoop d s)) = 0 :=
        dictTotal_allZero (allZero_foldl_loop ds _ hzall)
      have hRHS : suiteUpdateSet (d :: ds) s = Except.error Err.zeroTotal := by
        unfold suiteUpdateSet
        simp only [List.foldl_cons]
        have hnorm₂ : pmfNormalize 1 (ds.foldl (fun t d₂ => suiteUpdateLoop d₂ t)
            (suiteUpdateLoop d s)) =
            (ds.foldl (fun t d₂ => suiteUpdateLoop d₂ t) (suiteUpdateLoop d s),
             Except.error Err.zeroTotal) := by
          simp only [pmfNormalize]
          rw [if_pos hztot]
        rw [hnorm₂]
      rw [hLHS, hRHS]
      rfl
    · have htm_nonneg : 0 ≤ dictTotal (suiteUpdateLoop d s) := by
        unfold dictTotal
        exact List.sum_nonneg (by
          intro y hy
          obtain ⟨q, hq, he⟩ := List.mem_map.mp hy
          rw [← he]
          exact hnnm q hq)
      have htm_pos : 0 < dictTotal (suiteUpdateLoop d s) :=
        lt_of_le_of_ne htm_nonneg (Ne.symm hz)
      have hc : (1 : ℚ) / dictTotal (suiteUpdateLoop d s) ≠ 0 :=
        one_div_ne_zero hz
      have hnorm : pmfNormalize 1 (suiteUpdateLoop d s) =
          ((suiteUpdateLoop d s).map
            (fun p => (p.1, p.2 * (1 / dictTotal (suiteUpdateLoop d s)))),
           Except.ok (dictTotal (suiteUpdateLoop d s))) := by
        simp only [pmfNormalize]
        rw [if_neg hz]
      have hupdate : suiteUpdate d s = Except.ok
          ((suiteUpdateLoop d s).map
            (fun p => (p.1, p.2 * (1 / dictTotal (suiteUpdateLoop d s)))),
           dictTotal (suiteUpdateLoop d s)) := by
        unfold suiteUpdate
        rw [hnorm]
      have hLstep : suiteUpdateSeq (d :: ds) s =
          suiteUpdateSeq ds ((suiteUpdateLoop d s).map
            (fun p => (p.1, p.2 * (1 / dictTotal (suiteUpdateLoop d s))))) := by
        simp only [suiteUpdateSeq, hupdate]
      have hnd₁ : keysNodup ((suiteUpdateLoop d s).map
          (fun p => (p.1, p.2 * (1 / dictTotal (suiteUpdateLoop d s))))) := by
        unfold keysNodup
        rw [dictKeys_map_snd]
        exact hndm
      have hnn₁ : ∀ p ∈ (suiteUpdateLoop d s).map
          (fun p => (p.1, p.2 * (1 / dictTotal (suiteUpdateLoop d s)))),
          0 ≤ p.2 := by
        intro p hp
        obtain ⟨q, hq, he⟩ := List.mem_map.mp hp
        rw [← he]
        exact mul_nonneg (hnnm q hq) (le_of_lt (one_div_pos.mpr htm_pos))
      have htot₁ : dictTotal ((suiteUpdateLoop d s).map
          (fun p => (p.1, p.2 * (1 / dictTotal (suiteUpdateLoop d s))))) = 1 := by
        rw [dictTotal_map_mul]
        field_simp
      rw [hLstep, ih _ hnd₁ hnn₁ htot₁]
      have hfold : ds.foldl (fun t d₂ => suiteUpdateLoop d₂ t)
          ((suiteUpdateLoop d s).map
            (fun p => (p.1, p.2 * (1 / dictTotal (suiteUpdateLoop d s))))) =
          (ds.foldl (fun t d₂ => suiteUpdateLoop d₂ t) (suiteUpdateLoop d s)).map
            (fun p => (p.1, p.2 * (1 / dictTotal (suiteUpdateLoop d s)))) :=
        foldl_loop_scale ds _ hndm _
      unfold suiteUpdateSet
      simp only [List.foldl_cons]
      rw [hfold]
      by_cases hzu : dictTotal (ds.foldl (fun t d₂ => suiteUpdateLoop d₂ t)
          (suiteUpdateLoop d s)) = 0
      · have h₁ : pmfNormalize 1
            ((ds.foldl (fun t d₂ => suiteUpdateLoop d₂ t)
              (suiteUpdateLoop d s)).map
              (fun p => (p.1, p.2 * (1 / dictTotal (suiteUpdateLoop d s))))) =
            ((ds.foldl (fun t d₂ => suiteUpdateLoop d₂ t)
              (suiteUpdateLoop d s)).map
              (fun p => (p.1, p.2 * (1 / dictTotal (suiteUpdateLoop d s)))),
             Except.error Err.zeroTotal) := by
          simp only [pmfNormalize]
          rw [if_pos (by rw [dictTotal_map_mul, hzu]; ring)]
        have h₂ : pmfNormalize 1 (ds.foldl (fun t d₂ => suiteUpdateLoop d₂ t)
            (suiteUpdateLoop d s)) =
            (ds.foldl (fun t d₂ => suiteUpdateLoop d₂ t) (suiteUpdateLoop d s),
             Except.error Err.zeroTotal) := by
          simp only [pmfNormalize]
          rw [if_pos hzu]
        rw [h₁, h₂]
      · have h₁ : pmfNormalize 1
            ((ds.foldl (fun t d₂ => suiteUpdateLoop d₂ t)
              (suiteUpdateLoop d s)).map
              (fun p => (p.1, p.2 * (1 / dictTotal (suiteUpdateLoop d s))))) =
            (((ds.foldl (fun t d₂ => suiteUpdateLoop d₂ t)
              (suiteUpdateLoop d s)).map
              (fun p => (p.1, p.2 * (1 / dictTotal (suiteUpdateLoop d s))))).map
              (fun p => (p.1, p.2 * (1 / dictTotal
                ((ds.foldl (fun t d₂ => suiteUpdateLoop d₂ t)
                  (suiteUpdateLoop d s)).map
                  (fun p => (p.1, p.2 * (1 / dictTotal (suiteUpdateLoop d s)))))))),
             Except.ok (dictTotal
                ((ds.foldl (fun t d₂ => suiteUpdateLoop d₂ t)
                  (suiteUpdateLoop d s)).map
                  (fun p => (p.1, p.2 * (1 / dictTotal (suiteUpdateLoop d s))))))) := by
          simp only [pmfNormalize]
          rw [if_neg (by rw [dictTotal_map_mul]; exact mul_ne_zero hzu hc)]
        have h₂ : pmfNormalize 1 (ds.foldl (fun t d₂ => suiteUpdateLoop d₂ t)
            (suiteUpdateLoop d s)) =
            ((ds.foldl (fun t d₂ => suiteUpdateLoop d₂ t)
              (suiteUpdateLoop d s)).map
              (fun p => (p.1, p.2 * (1 / dictTotal
                (ds.foldl (fun t d₂ => suiteUpdateLoop d₂ t)
                  (suiteUpdateLoop d s))))),
             Except.ok (dictTotal (ds.foldl (fun t d₂ => suiteUpdateLoop d₂ t)
               (suiteUpdateLoop d s)))) := by
          simp only [pmfNormalize]
          rw [if_neg hzu]
        have hstate := @pmfNormalize_scale_fst
          (ds.foldl (fun t d₂ => suiteUpdateLoop d₂ t) (suiteUpdateLoop d s))
          (1 / dictTotal (suiteUpdateLoop d s)) hc hzu
        rw [h₁, h₂] at hstate
        dsimp only at hstate
        rw [h₁, h₂]
        dsimp only [Except.map]
        rw [hstate]

/-- C1: for a Suite built over any hypothesis set with the built-in
Likelihood, `UpdateSet` (multiply through the whole dataset, normalize
once) produces exactly the same final posterior state as calling `Update`
once per datum — including agreement on the ZeroTotal failure case — under
exact rational arithmetic. -/
theorem suite_updateSet_eq_seq (hypos dataset : List String)
    (s₀ : List (String × ℚ)) (hinit : suiteInit hypos = Except.ok s₀) :
    suiteUpdateSeq dataset s₀ = Except.map Prod.fst (suiteUpdateSet dataset s₀) := by
  have hbase_nd : keysNodup (hypos.foldl (fun t h => dictSet h 1 t) []) := by
    have hgen : ∀ (hs : List String) (t : List (String × ℚ)), keysNodup t →
        keysNodup (hs.foldl (fun u h => dictSet h 1 u) t) := by
      intro hs
      induction hs with
      | nil => intro t ht; exact ht
      | cons h hs ih =>
        intro t ht
        simp only [List.foldl_cons]
        exact ih _ (keysNodup_dictSet ht h 1)
    exact hgen hypos [] (by simp [keysNodup, dictKeys])
  have hbase_one : ∀ p ∈ hypos.foldl (fun t h => dictSet h 1 t) [],
      p.2 = (1 : ℚ) := by
    have hset : ∀ (t : List (String × ℚ)) (h : String),
        (∀ p ∈ t, p.2 = (1 : ℚ)) → ∀ p ∈ dictSet h 1 t, p.2 = (1 : ℚ) := by
      intro t h ht
      unfold dictSet
      by_cases hh : h ∈ dictKeys t
      · rw [if_pos hh]
        intro p hp
        obtain ⟨q, hq, he⟩ := List.mem_map.mp hp
        rw [← he]
        by_cases hqh : q.1 = h
        · rw [if_pos hqh]
        · rw [if_neg hqh]
          exact ht q hq
      · rw [if_neg hh]
        intro p hp
        rcases List.mem_append.mp hp with hin | hin
        · exact ht p hin
        · rw [List.mem_singleton.mp hin]
    have hgen : ∀ (hs : List String) (t : List (String × ℚ)),
        (∀ p ∈ t, p.2 = (1 : ℚ)) →
        ∀ p ∈ hs.foldl (fun u h => dictSet h 1 u) t, p.2 = (1 : ℚ) := by
      intro hs
      induction hs with
      | nil => intro t ht; exact ht
      | cons h hs ih =>
        intro t ht
        simp only [List.foldl_cons]
        exact ih _ (hset t h ht)
    exact hgen hypos [] (by simp)
  by_cases hz : dictTotal (hypos.foldl (fun t h => dictSet h 1 t) []) = 0
  · exfalso
    unfold suiteInit at hinit
    simp only [pmfNormalize] at hinit
    rw [if_pos hz] at hinit
    cases hinit
  · unfold suiteInit at hinit
    simp only [pmfNormalize] at hinit
    rw [if_neg hz] at hinit
    simp only at hinit
    injection hinit with he
    have hTpos : 0 < dictTotal (hypos.foldl (fun t h => dictSet h 1 t) []) := by
      have : 0 ≤ dictTotal (hypos.foldl (fun t h => dictSet h 1 t) []) := by
        unfold dictTotal
        exact List.sum_nonneg (by
          intro y hy
          obtain ⟨q, hq, hqe⟩ := List.mem_map.mp hy
          rw [← hqe, hbase_one q hq]
          norm_num)
      exact lt_of_le_of_ne this (Ne.symm hz)
    apply updateSeq_eq_updateSet_aux dataset s₀
    · rw [← he]
      unfold keysNodup
      rw [dictKeys_map_snd]
      exact hbase_nd
    · rw [← he]
      intro p hp
      obtain ⟨q, hq, hqe⟩ := List.mem_map.mp hp
      rw [← hqe]
      exact mul_nonneg (by rw [hbase_one q hq]; norm_num)
        (le_of_lt (one_div_pos.mpr hTpos))
    · rw [← he, dictTotal_map_mul]
      field_simp

/-- C1 witness: hypotheses A, B, C and the dataset ['B', 'C']. -/
theorem suite_updateSet_eq_seq_witness :
    suiteInit ["A", "B", "C"] =
      Except.ok [("A", (1 : ℚ) / 3), ("B", 1 / 3), ("C", 1 / 3)] ∧
    suiteUpdateSeq ["B", "C"] [("A", (1 : ℚ) / 3), ("B", 1 / 3), ("C", 1 / 3)] =
      Except.map Prod.fst
        (suiteUpdateSet ["B", "C"]
          [("A", (1 : ℚ) / 3), ("B", 1 / 3), ("C", 1 / 3)]) := by
  have hinit : suiteInit ["A", "B", "C"] =
      Except.ok [("A", (1 : ℚ) / 3), ("B", 1 / 3), ("C", 1 / 3)] := by
    simp [suiteInit, dictSet, dictKeys, pmfNormalize, dictTotal]
    norm_num
  exact ⟨hinit, suite_updateSet_eq_seq ["A", "B", "C"] ["B", "C"] _ hinit⟩

/-- C4: the Monty Hall Suite over hypotheses A, B, C starts at the uniform
prior [1/3, 1/3, 1/3]; `Update('B')` leaves posterior A: 1/3, B: 0, C: 2/3
and returns the pre-normalization total (marginal likelihood) 1/2. -/
theorem monty_example :
    suiteInit ["A", "B", "C"] =
      Except.ok [("A", (1 : ℚ) / 3), ("B", 1 / 3), ("C", 1 / 3)] ∧
    suiteUpdate "B" [("A", (1 : ℚ) / 3), ("B", 1 / 3), ("C", 1 / 3)] =
      Except.ok ([("A", (1 : ℚ) / 3), ("B", 0), ("C", 2 / 3)], 1 / 2) := by
  constructor
  · simp [suiteInit, dictSet, dictKeys, pmfNormalize, dictTotal]
    norm_num
  · simp [suiteUpdate, suiteUpdateLoop, dictKeys, dictMult, dictGet, dictSet,
      Likelihood, pmfNormalize, dictTotal]
    norm_num

/-- C9: `MakeCdfFromList` evaluates `Pmf.MakeHistFromList(seq)` and `Pmf`
(the class) has no attribute `MakeHistFromList`, so the call raises
AttributeError on every input (here `[1]`), while the tally-then-convert
path the claim describes succeeds and yields the one-point CDF. -/
theorem makeCdfFromList_attribute_error :
    MakeCdfFromList [(1 : ℚ)] = Except.error Err.attributeError ∧
    MakeCdfFromHist (MakeHistFromList [(1 : ℚ)]) = Cdf.mk [1] [1] := by
  constructor
  · rfl
  · simp [MakeCdfFromHist, MakeHistFromList, MakeCdfFromItems, sortItems,
      dictIncr, dictGet, dictSet, dictKeys, runningSums, pairLe]

theorem runningSums_length (l : List ℚ) : ∀ acc, (runningSums l acc).length = l.length := by
  induction l with
  | nil => intro acc; rfl
  | cons c rest ih =>
    intro acc
    simp only [runningSums, List.length_cons, ih]

theorem runningSums_ne_nil {l : List ℚ} (hne : l ≠ []) (acc : ℚ) :
    runningSums l acc ≠ [] := by
  cases l with
  | nil => exact absurd rfl hne
  | cons c rest => simp [runningSums]

theorem runningSums_getLastD (l : List ℚ) : ∀ acc d,
    (runningSums l acc).getLastD d = if l = [] then d else acc + l.sum := by
  induction l with
  | nil => intro acc d; simp [runningSums]
  | cons c rest ih =>
    intro acc d
    simp only [runningSums, List.getLastD_cons]
    rw [ih (acc + c) (acc + c)]
    by_cases hre : rest = []
    · simp [hre]
    · rw [if_neg hre, if_neg (by simp), List.sum_cons]
      ring

theorem runningSums_mem_lower {l : List ℚ} (hpos : ∀ c ∈ l, 0 < c) :
    ∀ acc y, y ∈ runningSums l acc → acc < y := by
  induction l with
  | nil => intro acc y hy; cases hy
  | cons c rest ih =>
    intro acc y hy
    rcases List.mem_cons.mp hy with he | ht
    · rw [he]
      have := hpos c (List.mem_cons_self _ _)
      linarith
    · have := ih (fun d hd => hpos d (List.mem_cons_of_mem _ hd)) (acc + c) y ht
      have hc := hpos c (List.mem_cons_self _ _)
      linarith

theorem runningSums_mem_upper {l : List ℚ} (hpos : ∀ c ∈ l, 0 ≤ c) :
    ∀ acc y, y ∈ runningSums l acc → y ≤ acc + l.sum := by
  induction l with
  | nil => intro acc y hy; cases hy
  | cons c rest ih =>
    intro acc y hy
    have hrest : 0 ≤ rest.sum :=
      List.sum_nonneg (fun d hd => hpos d (List.mem_cons_of_mem _ hd))
    rcases List.mem_cons.mp hy with he | ht
    · rw [he, List.sum_cons]
      linarith
    · have := ih (fun d hd => hpos d (List.mem_cons_of_mem _ hd)) (acc + c) y ht
      rw [List.sum_cons]
      linarith

theorem runningSums_pairwise_lt {l : List ℚ} (hpos : ∀ c ∈ l, 0 < c) :
    ∀ acc, (runningSums l acc).Pairwise (· < ·) := by
  induction l with
  | nil => intro acc; exact List.Pairwise.nil
  | cons c rest ih =>
    intro acc
    simp only [runningSums]
    rw [List.pairwise_cons]
    refine ⟨?_, ih (fun d hd => hpos d (List.mem_cons_of_mem _ hd)) (acc + c)⟩
    intro y hy
    exact runningSums_mem_lower (fun d hd => hpos d (List.mem_cons_of_mem _ hd)) _ y hy

theorem getLastD_eq_getD {l : List ℚ} (hne : l ≠ []) (d : ℚ) :
    l.getLastD d = l.getD (l.length - 1) d := by
  have hpos : 0 < l.length := List.length_pos.mpr hne
  have hlt : l.length - 1 < l.length := by omega
  rw [List.getLastD_eq_getLast?, List.getLast?_eq_getElem?]
  rw [List.getElem?_eq_getElem hlt, List.getD_eq_getElem l d hlt]
  rfl

/-- C7: the CDF built by `MakeCdfFromItems` from a non-empty sequence of
(value, count) pairs with positive counts has xs and ps of equal length,
xs sorted ascending, ps non-decreasing with every entry in [0, 1], and
final cumulative probability exactly 1. -/
theorem makeCdfFromItems_invariants (items : List (ℚ × ℚ))
    (hne : items ≠ []) (hpos : ∀ q ∈ items, 0 < q.2) :
    (MakeCdfFromItems items).xs ≠ [] ∧
    (MakeCdfFromItems items).xs.length = (MakeCdfFromItems items).ps.length ∧
    (MakeCdfFromItems items).xs.Pairwise (· ≤ ·) ∧
    (MakeCdfFromItems items).ps.Pairwise (· ≤ ·) ∧
    (∀ q ∈ (MakeCdfFromItems items).ps, 0 ≤ q ∧ q ≤ 1) ∧
    (MakeCdfFromItems items).ps.getD ((MakeCdfFromItems items).ps.length - 1) 0 =
      1 := by
  have hperm : List.Perm (sortItems items) items :=
    List.perm_insertionSort pairLe items
  have hsne : sortItems items ≠ [] := by
    intro he
    have hl := hperm.length_eq
    rw [he] at hl
    exact hne (List.length_eq_zero.mp hl.symm)
  have hspos : ∀ q ∈ sortItems items, 0 < q.2 :=
    fun q hq => hpos q (hperm.mem_iff.mp hq)
  have hsorted : (sortItems items).Pairwise pairLe :=
    List.sorted_insertionSort pairLe items
  have hcpos : ∀ c ∈ (sortItems items).map Prod.snd, 0 < c := by
    intro c hc
    obtain ⟨q, hq, he⟩ := List.mem_map.mp hc
    rw [← he]
    exact hspos q hq
  have hcne : (sortItems items).map Prod.snd ≠ [] := by
    simpa using hsne
  have hT : (runningSums ((sortItems items).map Prod.snd) 0).getLastD 0 =
      ((sortItems items).map Prod.snd).sum := by
    rw [runningSums_getLastD, if_neg hcne]
    ring
  have hTpos : 0 < ((sortItems items).map Prod.snd).sum := by
    cases hcl : (sortItems items).map Prod.snd with
    | nil => exact absurd hcl hcne
    | cons c rest =>
      rw [List.sum_cons]
      have h1 : 0 < c := hcpos c (hcl ▸ List.mem_cons_self _ _)
      have h2 : 0 ≤ rest.sum := List.sum_nonneg
        (fun d hd => le_of_lt (hcpos d (hcl ▸ List.mem_cons_of_mem _ hd)))
      linarith
  have hxs_eq : (MakeCdfFromItems items).xs = (sortItems items).map Prod.fst := rfl
  have hps_eq : (MakeCdfFromItems items).ps =
      (runningSums ((sortItems items).map Prod.snd) 0).map
        (fun c => c /
          (runningSums ((sortItems items).map Prod.snd) 0).getLastD 0) := rfl
  have hcslt : (runningSums ((sortItems items).map Prod.snd) 0).Pairwise (· < ·) :=
    runningSums_pairwise_lt hcpos 0
  have hcsne : runningSums ((sortItems items).map Prod.snd) 0 ≠ [] :=
    runningSums_ne_nil hcne 0
  refine ⟨?_, ?_, ?_, ?_, ?_, ?_⟩
  · rw [hxs_eq]
    simpa using hsne
  · rw [hxs_eq, hps_eq, List.length_map, List.length_map, runningSums_length,
      List.length_map]
  · rw [hxs_eq]
    refine List.Pairwise.map Prod.fst ?_ hsorted
    intro a b hab
    rcases hab with h | ⟨h, _⟩
    · exact le_of_lt h
    · exact le_of_eq h
  · rw [hps_eq]
    refine List.Pairwise.map _ ?_ hcslt
    intro a b hab
    rw [hT]
    exact le_of_lt ((div_lt_div_right hTpos).mpr hab)
  · rw [hps_eq]
    intro q hq
    obtain ⟨c, hc, he⟩ := List.mem_map.mp hq
    rw [← he, hT]
    constructor
    · have := runningSums_mem_lower hcpos 0 c hc
      positivity
    · rw [div_le_one hTpos]
      have := runningSums_mem_upper (fun d hd => le_of_lt (hcpos d hd)) 0 c hc
      linarith
  · rw [hps_eq]
    have hmne : ((runningSums ((sortItems items).map Prod.snd) 0).map
        (fun c => c /
          (runningSums ((sortItems items).map Prod.snd) 0).getLastD 0)) ≠ [] := by
      intro he
      exact hcsne (List.map_eq_nil_iff.mp he)
    rw [← getLastD_eq_getD hmne]
    rw [List.getLastD_eq_getLast?, List.getLast?_map]
    cases hgl : (runningSums ((sortItems items).map Prod.snd) 0).getLast? with
    | none =>
      exact absurd (List.getLast?_eq_none_iff.mp hgl) hcsne
    | some y =>
      have hy : y = ((sortItems items).map Prod.snd).sum := by
        rw [← hT, List.getLastD_eq_getLast?, hgl]
        rfl
      simp only [Option.map_some', Option.getD_some]
      rw [hy, hT]
      exact div_self (ne_of_gt hTpos)

/-- C7 witness: the unsorted positive-count items [(3,2),(1,1),(2,1)]. -/
theorem makeCdfFromItems_invariants_witness :
    ([((3 : ℚ), (2 : ℚ)), (1, 1), (2, 1)] ≠ [] ∧
      (∀ q ∈ [((3 : ℚ), (2 : ℚ)), (1, 1), (2, 1)], 0 < q.2)) ∧
    ((MakeCdfFromItems [((3 : ℚ), (2 : ℚ)), (1, 1), (2, 1)]).xs ≠ [] ∧
     (MakeCdfFromItems [((3 : ℚ), (2 : ℚ)), (1, 1), (2, 1)]).xs.length =
       (MakeCdfFromItems [((3 : ℚ), (2 : ℚ)), (1, 1), (2, 1)]).ps.length ∧
     (MakeCdfFromItems [((3 : ℚ), (2 : ℚ)), (1, 1), (2, 1)]).xs.Pairwise (· ≤ ·) ∧
     (MakeCdfFromItems [((3 : ℚ), (2 : ℚ)), (1, 1), (2, 1)]).ps.Pairwise (· ≤ ·) ∧
     (∀ q ∈ (MakeCdfFromItems [((3 : ℚ), (2 : ℚ)), (1, 1), (2, 1)]).ps,
       0 ≤ q ∧ q ≤ 1) ∧
     (MakeCdfFromItems [((3 : ℚ), (2 : ℚ)), (1, 1), (2, 1)]).ps.getD
       ((MakeCdfFromItems [((3 : ℚ), (2 : ℚ)), (1, 1), (2, 1)]).ps.length - 1) 0 =
       1) :=
  ⟨⟨by simp, by decide⟩,
    makeCdfFromItems_invariants [((3 : ℚ), (2 : ℚ)), (1, 1), (2, 1)]
      (by simp) (by decide)⟩

/-- Consecutive differencing of running sums recovers the original
weights: the `MakePmfFromCdf` loop over a CDF whose `ps` are the running
sums of the weights of `l` performs exactly `Incr(value, weight)` per
item. -/
theorem makePmfFromCdfLoop_runningSums (l : List (ℚ × ℚ)) :
    ∀ (prev : ℚ) (pmf : List (ℚ × ℚ)),
    makePmfFromCdfLoop ((l.map Prod.fst).zip (runningSums (l.map Prod.snd) prev))
      prev pmf = l.foldl (fun t q => dictIncr q.1 q.2 t) pmf := by
  induction l with
  | nil => intro prev pmf; rfl
  | cons q rest ih =>
    intro prev pmf
    simp only [List.map_cons, runningSums, List.zip_cons_cons,
      makePmfFromCdfLoop, List.foldl_cons]
    have harith : prev + q.2 - prev = q.2 := by ring
    rw [harith]
    exact ih (prev + q.2) _

/-- Folding `Incr` over items whose keys are fresh and mutually distinct
appends each item (with weight `0 + w`) in order. -/
theorem foldl_dictIncr_append (l : List (ℚ × ℚ)) : ∀ (acc : List (ℚ × ℚ)),
    (dictKeys l).Nodup → (∀ q ∈ l, q.1 ∉ dictKeys acc) →
    l.foldl (fun t q => dictIncr q.1 q.2 t) acc =
      acc ++ l.map (fun q => (q.1, 0 + q.2)) := by
  induction l with
  | nil => intro acc _ _; simp
  | cons q rest ih =>
    intro acc hnd hdisj
    simp only [List.foldl_cons]
    have hq : q.1 ∉ dictKeys acc := hdisj q (List.mem_cons_self _ _)
    have hstep : dictIncr q.1 q.2 acc = acc ++ [(q.1, 0 + q.2)] := by
      unfold dictIncr
      rw [dictGet_of_not_mem 0 hq]
      unfold dictSet
      rw [if_neg hq]
    rw [hstep]
    have hkeys_cons : dictKeys (q :: rest) = q.1 :: dictKeys rest := rfl
    rw [hkeys_cons, List.nodup_cons] at hnd
    rw [ih (acc ++ [(q.1, 0 + q.2)]) hnd.2 ?_]
    · rw [List.map_cons, List.append_assoc]
      rfl
    · intro r hr hmem
      unfold dictKeys at hmem
      rw [List.map_append] at hmem
      rcases List.mem_append.mp hmem with hin | hin
      · exact hdisj r (List.mem_cons_of_mem _ hr) hin
      · have : r.1 = q.1 := by simpa using hin
        exact hnd.1 (this ▸ List.mem_map.mpr ⟨r, hr, rfl⟩)

/-- Under unique keys, dict lookup is invariant under permutation of the
stored items. -/
theorem dictGet_perm {s t : List (α × ℚ)} (hp : List.Perm s t)
    (hnd : keysNodup s) (x : α) (d : ℚ) : dictGet x d s = dictGet x d t := by
  have hndt : keysNodup t := by
    unfold keysNodup dictKeys at hnd ⊢
    exact ((hp.map Prod.fst).nodup_iff).mp hnd
  by_cases hx : x ∈ dictKeys s
  · obtain ⟨p, hps, hpe⟩ := List.mem_map.mp hx
    have hxs : (x, p.2) ∈ s := by
      have hpx : p = (x, p.2) := by
        rw [← hpe]
      rw [← hpx]
      exact hps
    have hxt : (x, p.2) ∈ t := hp.subset hxs
    rw [dictGet_of_mem_nodup hnd hxs, dictGet_of_mem_nodup hndt hxt]
  · have hxt : x ∉ dictKeys t := by
      intro hc
      apply hx
      unfold dictKeys at hc ⊢
      exact ((hp.map Prod.fst).mem_iff).mpr hc
    rw [dictGet_of_not_mem d hx, dictGet_of_not_mem d hxt]

/-- C5: tallied positive integer frequencies, normalized to a PMF
(`MakePmfFromHist`), converted to a CDF (`MakeCdfFromPmf`) and recovered by
consecutive differencing (`MakePmfFromCdf`), give back exactly the same
point mass for every value (exact rational arithmetic). -/
theorem hist_pmf_cdf_roundtrip (h : List (ℚ × ℚ)) (hne : h ≠ [])
    (hnd : keysNodup h)
    (hposint : ∀ p ∈ h, ∃ n : ℕ, p.2 = (n : ℚ) ∧ 0 < n) :
    ∃ pmf₁, MakePmfFromHist h = Except.ok pmf₁ ∧
      ∀ x : ℚ, dictGet x 0 (MakePmfFromCdf (MakeCdfFromPmf pmf₁)) =
        dictGet x 0 pmf₁ := by
  have hpos : ∀ p ∈ h, 0 < p.2 := by
    intro p hp
    obtain ⟨n, he, hn⟩ := hposint p hp
    rw [he]
    exact_mod_cast hn
  have hTpos : 0 < dictTotal h := by
    unfold dictTotal
    cases hh : h with
    | nil => exact absurd hh hne
    | cons p rest =>
      rw [List.map_cons, List.sum_cons]
      have h1 := hpos p (hh ▸ List.mem_cons_self _ _)
      have h2 : 0 ≤ (rest.map Prod.snd).sum := List.sum_nonneg (by
        intro y hy
        obtain ⟨r, hr, he⟩ := List.mem_map.mp hy
        rw [← he]
        exact le_of_lt (hpos r (hh ▸ List.mem_cons_of_mem _ hr)))
      linarith
  refine ⟨h.map (fun p => (p.1, p.2 * (1 / dictTotal h))), ?_, ?_⟩
  · unfold MakePmfFromHist pmfNormalize
    simp only [if_neg (ne_of_gt hTpos)]
  · intro x
    have hkeys_pmf : dictKeys (h.map (fun p => (p.1, p.2 * (1 / dictTotal h)))) =
        dictKeys h := by
      unfold dictKeys
      rw [List.map_map]
      exact List.map_congr_left (fun p _ => rfl)
    have hnd₁ : keysNodup (h.map (fun p => (p.1, p.2 * (1 / dictTotal h)))) := by
      unfold keysNodup
      rw [hkeys_pmf]
      exact hnd
    have htot₁ : dictTotal (h.map (fun p => (p.1, p.2 * (1 / dictTotal h)))) = 1 := by
      rw [dictTotal_map_mul]
      field_simp
    have hperm : List.Perm
        (sortItems (h.map (fun p => (p.1, p.2 * (1 / dictTotal h)))))
        (h.map (fun p => (p.1, p.2 * (1 / dictTotal h)))) :=
      List.perm_insertionSort pairLe _
    have hnds : keysNodup
        (sortItems (h.map (fun p => (p.1, p.2 * (1 / dictTotal h))))) := by
      unfold keysNodup dictKeys
      unfold keysNodup dictKeys at hnd₁
      exact ((hperm.map Prod.fst).nodup_iff).mpr hnd₁
    have hsum_s :
        ((sortItems (h.map (fun p => (p.1, p.2 * (1 / dictTotal h))))).map
          Prod.snd).sum = 1 := by
      rw [(hperm.map Prod.snd).sum_eq]
      exact htot₁
    have hsne : sortItems (h.map (fun p => (p.1, p.2 * (1 / dictTotal h)))) ≠ [] := by
      intro he
      have hl := hperm.length_eq
      rw [he] at hl
      have : h.length = 0 := by simpa using hl.symm
      exact hne (List.length_eq_zero.mp this)
    have hcne : (sortItems (h.map (fun p => (p.1, p.2 * (1 / dictTotal h))))).map
        Prod.snd ≠ [] := by
      intro he
      exact hsne (List.map_eq_nil_iff.mp he)
    have hT1 : (runningSums
        ((sortItems (h.map (fun p => (p.1, p.2 * (1 / dictTotal h))))).map
          Prod.snd) 0).getLastD 0 = 1 := by
      rw [runningSums_getLastD, if_neg hcne, hsum_s]
      ring
    have hcdf : MakeCdfFromPmf (h.map (fun p => (p.1, p.2 * (1 / dictTotal h)))) =
        Cdf.mk
          ((sortItems (h.map (fun p => (p.1, p.2 * (1 / dictTotal h))))).map
            Prod.fst)
          (runningSums
            ((sortItems (h.map (fun p => (p.1, p.2 * (1 / dictTotal h))))).map
              Prod.snd) 0) := by
      unfold MakeCdfFromPmf MakeCdfFromItems
      simp only [hT1, div_one, List.map_id']
    rw [hcdf]
    unfold MakePmfFromCdf
    simp only
    rw [makePmfFromCdfLoop_runningSums]
    rw [foldl_dictIncr_append _ [] hnds (by intro q _ hmem; simp [dictKeys] at hmem)]
    rw [List.nil_append]
    have hmapid :
        (sortItems (h.map (fun p => (p.1, p.2 * (1 / dictTotal h))))).map
          (fun q => (q.1, 0 + q.2)) =
        sortItems (h.map (fun p => (p.1, p.2 * (1 / dictTotal h)))) := by
      have hfid : (fun q : ℚ × ℚ => (q.1, 0 + q.2)) = id :=
        funext (fun q => by simp)
      rw [hfid, List.map_id]
    rw [hmapid]
    exact dictGet_perm hperm hnds x 0

/-- C5 witness: the spec's example histogram {1:1, 2:2, 3:3}. -/
theorem hist_pmf_cdf_roundtrip_witness :
    ([((1 : ℚ), (1 : ℚ)), (2, 2), (3, 3)] ≠ [] ∧
      keysNodup [((1 : ℚ), (1 : ℚ)), (2, 2), (3, 3)] ∧
      (∀ p ∈ [((1 : ℚ), (1 : ℚ)), (2, 2), (3, 3)],
        ∃ n : ℕ, p.2 = (n : ℚ) ∧ 0 < n)) ∧
    ∃ pmf₁, MakePmfFromHist [((1 : ℚ), (1 : ℚ)), (2, 2), (3, 3)] =
        Except.ok pmf₁ ∧
      ∀ x : ℚ, dictGet x 0 (MakePmfFromCdf (MakeCdfFromPmf pmf₁)) =
        dictGet x 0 pmf₁ := by
  have h1 : [((1 : ℚ), (1 : ℚ)), (2, 2), (3, 3)] ≠ [] := by simp
  have h2 : keysNodup [((1 : ℚ), (1 : ℚ)), (2, 2), (3, 3)] := by
    unfold keysNodup dictKeys
    norm_num
  have h3 : ∀ p ∈ [((1 : ℚ), (1 : ℚ)), (2, 2), (3, 3)],
      ∃ n : ℕ, p.2 = (n : ℚ) ∧ 0 < n := by
    intro p hp
    rcases List.mem_cons.mp hp with he | hp₂
    · exact ⟨1, by rw [he]; norm_num, by omega⟩
    rcases List.mem_cons.mp hp₂ with he | hp₃
    · exact ⟨2, by rw [he]; norm_num, by omega⟩
    rcases List.mem_cons.mp hp₃ with he | hp₄
    · exact ⟨3, by rw [he]; norm_num, by omega⟩
    · cases hp₄
  exact ⟨⟨h1, h2, h3⟩,
    hist_pmf_cdf_roundtrip [((1 : ℚ), (1 : ℚ)), (2, 2), (3, 3)] h1 h2 h3⟩

/-- The scan loop of `Percentile` lands on the first position whose running
prefix sum reaches `p`, provided the whole total does. -/
theorem percentileLoop_spec (p : ℚ) :
    ∀ (l : List (ℚ × ℚ)) (acc : ℚ), l ≠ [] → p ≤ acc + dictTotal l →
    ∃ i, i < l.length ∧
      percentileLoop p l acc = some (l.getD i (0, 0)).1 ∧
      p ≤ acc + takeTotal l (i + 1) ∧
      ∀ j, j < i → acc + takeTotal l (j + 1) < p := by
  intro l
  induction l with
  | nil => intro acc hne _; exact absurd rfl hne
  | cons vw rest ih =>
    intro acc _ hreach
    by_cases hstep : p ≤ acc + vw.2
    · refine ⟨0, by simp, ?_, ?_, fun j hj => absurd hj (by omega)⟩
      · simp only [percentileLoop, if_pos hstep]
        rfl
      · simpa [takeTotal, dictTotal] using hstep
    · have hrest : rest ≠ [] := by
        intro he
        rw [he] at hreach
        simp [dictTotal] at hreach
        exact hstep (by linarith)
      have hreach2 : p ≤ (acc + vw.2) + dictTotal rest := by
        have : dictTotal (vw :: rest) = vw.2 + dictTotal rest := by
          simp [dictTotal]
        rw [this] at hreach
        linarith
      obtain ⟨i, hi, hloop, hcum, hbefore⟩ := ih (acc + vw.2) hrest hreach2
      refine ⟨i + 1, by simp; omega, ?_, ?_, ?_⟩
      · simp only [percentileLoop, if_neg hstep]
        rw [hloop]
        rfl
      · have ht : takeTotal (vw :: rest) (i + 2) = vw.2 + takeTotal rest (i + 1) := by
          simp [takeTotal, dictTotal]
        rw [ht]
        linarith
      · intro j hj
        cases j with
        | zero =>
          have ht : takeTotal (vw :: rest) 1 = vw.2 := by
            simp [takeTotal, dictTotal]
          rw [ht]
          linarith [not_le.mp hstep]
        | succ j₀ =>
          have ht : takeTotal (vw :: rest) (j₀ + 2) =
              vw.2 + takeTotal rest (j₀ + 1) := by
            simp [takeTotal, dictTotal]
          rw [ht]
          have := hbefore j₀ (by omega)
          linarith

/-- C8 (amended): `Percentile` walks the Pmf's items in stored
(dict-iteration) order — not in ascending value order — and, whenever the
total weight reaches pct/100, returns the value at the first stored
position where the accumulated weight reaches pct/100. -/
theorem percentile_spec (pmf : List (ℚ × ℚ)) (pct : ℚ) (hne : pmf ≠ [])
    (hreach : pct / 100 ≤ dictTotal pmf) :
    ∃ i, i < pmf.length ∧
      Percentile pmf pct = some (pmf.getD i (0, 0)).1 ∧
      pct / 100 ≤ takeTotal pmf (i + 1) ∧
      ∀ j, j < i → takeTotal pmf (j + 1) < pct / 100 := by
  obtain ⟨i, hi, hloop, hcum, hbefore⟩ :=
    percentileLoop_spec (pct / 100) pmf 0 hne (by linarith)
  refine ⟨i, hi, ?_, by linarith, fun j hj => by linarith [hbefore j hj]⟩
  unfold Percentile
  exact hloop

/-- C8 witness: on the value-ascending Pmf [(1,1/4),(2,1/4),(3,1/2)] the
scan returns 2, the first (hence smallest) value whose accumulated mass
reaches 50/100. -/
theorem percentile_spec_witness :
    [((1 : ℚ), (1 : ℚ) / 4), (2, 1 / 4), (3, 1 / 2)] ≠ [] ∧
    (50 : ℚ) / 100 ≤ dictTotal [((1 : ℚ), (1 : ℚ) / 4), (2, 1 / 4), (3, 1 / 2)] ∧
    ∃ i, i < 3 ∧
      Percentile [((1 : ℚ), (1 : ℚ) / 4), (2, 1 / 4), (3, 1 / 2)] 50 =
        some ([((1 : ℚ), (1 : ℚ) / 4), (2, 1 / 4), (3, 1 / 2)].getD i (0, 0)).1 ∧
      (50 : ℚ) / 100 ≤
        takeTotal [((1 : ℚ), (1 : ℚ) / 4), (2, 1 / 4), (3, 1 / 2)] (i + 1) ∧
      ∀ j, j < i →
        takeTotal [((1 : ℚ), (1 : ℚ) / 4), (2, 1 / 4), (3, 1 / 2)] (j + 1) <
          (50 : ℚ) / 100 := by
  have h1 : [((1 : ℚ), (1 : ℚ) / 4), (2, 1 / 4), (3, 1 / 2)] ≠ [] := by simp
  have h2 : (50 : ℚ) / 100 ≤
      dictTotal [((1 : ℚ), (1 : ℚ) / 4), (2, 1 / 4), (3, 1 / 2)] := by
    norm_num [dictTotal]
  obtain ⟨i, hi, h⟩ := percentile_spec
    [((1 : ℚ), (1 : ℚ) / 4), (2, 1 / 4), (3, 1 / 2)] 50 h1 h2
  exact ⟨h1, h2, i, by simpa using hi, h⟩

/-- C8 counterexample: on the Pmf stored as [(8, 1/2), (1, 1/2)] (dict
iteration order need not be ascending by value), `Percentile(pmf, 50)`
returns 8, while the ascending-order walk the claim describes returns the
smallest qualifying value 1. -/
theorem percentile_order_counterexample :
    Percentile [((8 : ℚ), (1 : ℚ) / 2), (1, 1 / 2)] 50 = some 8 ∧
    PercentileAscendingClaim [((8 : ℚ), (1 : ℚ) / 2), (1, 1 / 2)] 50 = some 1 ∧
    dictTotal [((8 : ℚ), (1 : ℚ) / 2), (1, 1 / 2)] = 1 ∧
    (50 : ℚ) / 100 ≤ 1 ∧ some (8 : ℚ) ≠ some (1 : ℚ) := by
  refine ⟨?_, ?_, by norm_num [dictTotal], by norm_num, by norm_num⟩
  · norm_num [Percentile, percentileLoop]
  · norm_num [PercentileAscendingClaim, sortItems, percentileLoop, pairLe]

/-- C10 witness: scaling the absent key 7 of a concrete Pmf. -/
theorem mult_absent_key_witness :
    (7 : ℚ) ∉ dictKeys [((3 : ℚ), (1 : ℚ)), (5, 3)] ∧
    ((7 : ℚ) ∈ dictKeys (dictMult 7 2 [((3 : ℚ), (1 : ℚ)), (5, 3)]) ∧
     dictTotal (dictMult 7 2 [((3 : ℚ), (1 : ℚ)), (5, 3)]) =
       dictTotal [((3 : ℚ), (1 : ℚ)), (5, 3)] ∧
     dictGet 7 0 (dictMult 7 2 [((3 : ℚ), (1 : ℚ)), (5, 3)]) = 0) :=
  ⟨by decide, mult_absent_key [((3 : ℚ), (1 : ℚ)), (5, 3)] 7 2 (by decide)⟩

end ThinkBayes
